import Mathlib

/-!
Shallow embedding of the fun-matrix dense-matrix engine (astuanax/fun-matrix).

Matrices are rectangular JavaScript arrays of arrays of numbers; we embed the
number type as `ℚ` (the spec allows exact arithmetic) and a matrix as
`List (List ℚ)`, mirroring the `__value` field of the `Matrix` class.
Each definition below is translated from the repository source
(`src/unnamed/part_001` and the bundled `src/lib/@astuanax/funmatrix.js`,
which contains the `util/` helpers and the `fun.js` combinators).

`fun.js` semantics used throughout:
  * `map(cb)(a)`   calls `cb(a[i], i)` on each element, producing a new array;
  * `fold(cb, init)(a)` is a left fold calling `cb(acc, a[i], i)`;
  * `concat(a, b)` on arrays is `a ++ b`.
Out-of-bounds JavaScript array reads yield `undefined`; in the well-formed
regions exercised by the algorithms all reads are in bounds, and the embedding
uses `getD`-style total reads with default `0` (resp. `[]`), with explicit
`Option`/hypotheses at the places where the JavaScript code would actually
crash on an out-of-bounds access (see `rank`).
-/

namespace FunMatrix

/-- The `__value` of a `Matrix`: an array of row arrays. -/
abbrev Mat := List (List ℚ)

/-- A plain numeric array (used by `solve`). -/
abbrev Vec := List ℚ

/-- Element read `M.__value[i][j]` (total, default 0 — in-bounds everywhere it is used). -/
def getE (A : Mat) (i j : ℕ) : ℚ := (A.getD i []).getD j 0

/-- Embeds `Matrix.prototype.getRows`: `this.__value.length`. -/
def getRows (A : Mat) : ℕ := A.length

/-- Embeds `Matrix.prototype.getCols`: `this.__value[0].length`. -/
def getCols (A : Mat) : ℕ := (A.headD []).length

/-- Rectangularity: an `m × n` matrix in the sense of the data model. -/
def wellFormed (A : Mat) (m n : ℕ) : Prop := A.length = m ∧ ∀ r ∈ A, r.length = n

instance wellFormed_decidable (A : Mat) (m n : ℕ) : Decidable (wellFormed A m n) := by
  unfold wellFormed; infer_instance

/-- Embeds `util/round.js`: `Number(Math.round(value + 'e' + decimals) + 'e-' + decimals)`,
i.e. scale by `10^decimals`, round half towards `+∞` (JavaScript `Math.round`,
which is `⌊x + 1/2⌋`), and scale back. -/
def jsRound (x : ℚ) (d : ℕ) : ℚ := (⌊x * 10 ^ d + 1 / 2⌋ : ℚ) / 10 ^ d

/-!  ## Transpose (`util/transpose.js` + `Matrix.prototype.transpose`) -/

/-- The fold combinator of `util/transpose.js`:
`(prev, next) => map((item, i) => (prev[i] || []).concat(next[i]))(next)`. -/
def transposeStep (prev : Mat) (next : List ℚ) : Mat :=
  next.enum.map (fun p => prev.getD p.1 [] ++ [p.2])

/-- Embeds `Matrix.prototype.transpose`: `Matrix.of(fold(transpose, [], this.__value))`. -/
def transpose (A : Mat) : Mat := A.foldl transposeStep []

/-!  ## Dot product (`util/dot.js` + `Matrix.prototype.dot`) -/

/-- The inner body of `util/dot.js` applied to one row `a` of the left matrix:
`map((item, i) => fold((acc, x, j) => acc + round(x * B[j][i], decimals), 0)(a))(B[0])`. -/
def dotRow (decimals : ℕ) (B : Mat) (a : List ℚ) : List ℚ :=
  (B.headD []).enum.map
    (fun p => a.enum.foldl (fun acc q => acc + jsRound (q.2 * getE B q.1 p.1) decimals) 0)

/-- Embeds `Matrix.prototype.dot`: `this.concat(Matrix.of(M), dot(this.precision))`,
which maps `dotRow` over the rows of `this`. `decimals` is the matrix's
`precision` field (default `4`). -/
def dot (decimals : ℕ) (A B : Mat) : Mat := A.map (dotRow decimals B)

/-!  ## Elementwise arithmetic (`add` / `subtract` / `multiply`) -/

instance exceptDecidableEq {ε α : Type} [DecidableEq ε] [DecidableEq α] :
    DecidableEq (Except ε α) := fun x y =>
  match x, y with
  | .error a, .error b =>
      if h : a = b then .isTrue (by rw [h])
      else .isFalse (fun hc => by injection hc with h'; exact h h')
  | .ok a, .ok b =>
      if h : a = b then .isTrue (by rw [h])
      else .isFalse (fun hc => by injection hc with h'; exact h h')
  | .error _, .ok _ => .isFalse (fun hc => by injection hc)
  | .ok _, .error _ => .isFalse (fun hc => by injection hc)

/-- The duck-typed argument of `add`/`subtract`/`multiply`:
either a `Matrix` or a scalar (`M instanceof Matrix` dispatch). -/
inductive Operand where
  | matrix (M : Mat)
  | scalar (x : ℚ)

/-- Embeds `Matrix.prototype.add`. -/
def add (A : Mat) : Operand → Except String Mat
  | .matrix M =>
      if getCols A ≠ getCols M ∨ getRows A ≠ getRows M then
        .error "Matrices do not match, cannot add"
      else
        .ok (A.enum.map (fun p => p.2.enum.map (fun q => q.2 + getE M p.1 q.1)))
  | .scalar s => .ok (A.map (fun row => row.map (fun x => x + s)))

/-- Embeds `Matrix.prototype.subtract`. -/
def subtract (A : Mat) : Operand → Except String Mat
  | .matrix M =>
      if getCols A ≠ getCols M ∨ getRows A ≠ getRows M then
        .error "Matrices do not match, cannot subtract"
      else
        .ok (A.enum.map (fun p => p.2.enum.map (fun q => q.2 - getE M p.1 q.1)))
  | .scalar s => .ok (A.map (fun row => row.map (fun x => x - s)))

/-- Embeds `Matrix.prototype.multiply` (Hadamard product / scalar broadcast). -/
def multiply (A : Mat) : Operand → Except String Mat
  | .matrix M =>
      if getCols A ≠ getCols M ∨ getRows A ≠ getRows M then
        .error "Matrices do not match, cannot create hadamard product"
      else
        .ok (A.enum.map (fun p => p.2.enum.map (fun q => q.2 * getE M p.1 q.1)))
  | .scalar s => .ok (A.map (fun row => row.map (fun x => x * s)))

/-!  ## `Matrix.of` -/

/-- A `Matrix` object (its `__value`). -/
structure MatrixObj where
  val : Mat
deriving DecidableEq

/-- The argument of `Matrix.of`: an array of arrays, or an existing `Matrix`. -/
inductive OfArg where
  | arr (v : Mat)
  | mat (M : MatrixObj)

/-- Embeds `Matrix.of` as invoked statically (`Matrix.of(val)`):
`if (val instanceof Matrix) return val; ...; return new Matrix(val)`.
(The middle `this instanceof Matrix` branch only fires for constructor-style
invocations, which the claim does not concern.) -/
def Matrix.of : OfArg → MatrixObj
  | .mat M => M
  | .arr v => ⟨v⟩

/-!  ## LU decomposition (`Matrix.prototype.lu`)

The working matrices `A` (the clone), `L` and `U` are JavaScript 2-D arrays
mutated by index; we embed them as functions `ℕ → ℕ → ℚ` with pointwise
update, and the `for` loops as left folds over their (statically known)
index ranges. -/

/-- Index-access view of a working matrix. -/
abbrev MF := ℕ → ℕ → ℚ

/-- Assignment `X[i][j] = v`. -/
def updF (X : MF) (i j : ℕ) (v : ℚ) : MF :=
  fun i' j' => if i' = i ∧ j' = j then v else X i' j'

/-- The pivot tolerance `tol = 1e-6` of `Matrix.prototype.lu`. -/
def tol : ℚ := 1 / 1000000

/-- Embeds JavaScript `Math.abs`. -/
def jsAbs (x : ℚ) : ℚ := if x < 0 then -x else x

/-- Inner loop of `lu`:
`for (let j = k + 1; j < n; ++j) A[i][j] = A[i][j] - L[i][k] * A[k][j]`. -/
def luJ (n k i : ℕ) (L : MF) (A : MF) : MF :=
  (List.range' (k + 1) (n - (k + 1))).foldl
    (fun Ac j => updF Ac i j (Ac i j - L i k * Ac k j)) A

/-- Middle loop of `lu`:
`for (let i = k + 1; i < n; ++i) { L[i][k] = A[i][k] / A[k][k]; <inner loop> }`. -/
def luI (n k : ℕ) (A L : MF) : MF × MF :=
  (List.range' (k + 1) (n - (k + 1))).foldl
    (fun p i =>
      let L' := updF p.2 i k (p.1 i k / p.1 k k)
      (luJ n k i L' p.1, L'))
    (A, L)

/-- Copy loop of `lu`: `for (let l = k; l < n; ++l) U[k][l] = A[k][l]`. -/
def luU (n k : ℕ) (A U : MF) : MF :=
  (List.range' k (n - k)).foldl (fun Uc l => updF Uc k l (A k l)) U

/-- Body of one iteration of the `k` loop of `lu` after the pivot check:
`L[k][k] = 1`, the `i`/`j` elimination loops, then the `U` copy loop. -/
def gaussStep (n : ℕ) (st : MF × MF × MF) (k : ℕ) : MF × MF × MF :=
  let L1 := updF st.2.1 k k 1
  let AL := luI n k st.1 L1
  let U' := luU n k AL.1 st.2.2
  (AL.1, AL.2, U')

/-- One iteration of the `k` loop of `lu`, including the pivot check
`if (Math.abs(A[k][k]) < tol) throw Error('Cannot proceed without a row exchange')`. -/
def luStep (n : ℕ) (st : MF × MF × MF) (k : ℕ) : Except String (MF × MF × MF) :=
  if jsAbs (st.1 k k) < tol then .error "Cannot proceed without a row exchange"
  else .ok (gaussStep n st k)

/-- Index-access view of a list matrix (element reads `__value[i][j]`). -/
def toFun (A : Mat) : MF := fun i j => getE A i j

/-- Materialisation of the first `n × n` entries of an index-access matrix. -/
def ofFun (n : ℕ) (f : MF) : Mat :=
  (List.range n).map (fun i => (List.range n).map (fun j => f i j))

/-- Embeds `Matrix.prototype.lu`: with `n = this.getRows()`, run the `k` loop on
`A = this.clone()`, `L = this.zeros()`, `U = this.zeros()` and return `[L, U]`;
a pivot below the tolerance aborts with the row-exchange error. -/
def lu (A : Mat) : Except String (Mat × Mat) :=
  let n := getRows A
  match (List.range n).foldlM (luStep n) (toFun A, fun _ _ => 0, fun _ _ => 0) with
  | .error e => .error e
  | .ok st => .ok (ofFun n st.2.1, ofFun n st.2.2)

/-- The elimination state (working `A`, `L`, `U`) reached after the first `k`
iterations of the `k` loop, ignoring the pivot check. -/
def luState (n : ℕ) (A : Mat) (k : ℕ) : MF × MF × MF :=
  (List.range k).foldl (gaussStep n) (toFun A, fun _ _ => 0, fun _ _ => 0)

/-- The working pivot `A[k][k]` examined by step `k` of the elimination. -/
def pivotAt (A : Mat) (k : ℕ) : ℚ := (luState (getRows A) A k).1 k k

/-!  ## Determinant (`Matrix.prototype.determinant`) -/

/-- Embeds `Matrix.prototype.diagproduct`:
`fold((acc, x, idx) => { acc *= x[idx]; return acc }, 1)`. -/
def diagproduct (M : Mat) : ℚ :=
  M.enum.foldl (fun acc p => acc * p.2.getD p.1 0) 1

/-- Embeds `Matrix.prototype.determinant`: closed form `a*d - b*c` for 2×2,
otherwise the product of the diagonal products of the LU factors; errors on
non-square input. -/
def determinant (A : Mat) : Except String ℚ :=
  if getCols A = getRows A then
    if getCols A = 2 then
      .ok (getE A 0 0 * getE A 1 1 - getE A 0 1 * getE A 1 0)
    else
      match lu A with
      | .error e => .error e
      | .ok LU => .ok (diagproduct LU.1 * diagproduct LU.2)
  else .error "The Matrix needs to be a square Matrix to calculate the determinant"

/-!  ## Solve (`Matrix.prototype.solve`) -/

/-- Forward-substitution loop of `solve`:
`for (k = 0; k < n; ++k) { for (j = 0; j < k; ++j) s += L[k][j] * c[j]; c[k] = b[k] - s; s = 0 }`
(`c` grows by one entry per iteration). -/
def solveC (n : ℕ) (L : Mat) (b : Vec) : Vec :=
  (List.range n).foldl
    (fun c k =>
      c ++ [b.getD k 0 - (List.range k).foldl (fun s j => s + getE L k j * c.getD j 0) 0])
    []

/-- Back-substitution loop of `solve`, counting `a` down from `n - 1` to `0`:
`for (a = n-1; a > -1; --a) { for (b = a+1; b < n; ++b) t += U[a][b] * x[b]; x[a] = (c[a] - t) / U[a][a] }`.
The argument counts the remaining iterations; `x` starts with no entries set
(embedded as `n` zeros, only indexes `≥ a + 1` are ever read). -/
def solveX (n : ℕ) (U : Mat) (c : Vec) : ℕ → Vec → Vec
  | 0, x => x
  | m + 1, x =>
      let t := (List.range' (m + 1) (n - (m + 1))).foldl
        (fun t b' => t + getE U m b' * x.getD b' 0) 0
      solveX n U c m (x.set m ((c.getD m 0 - t) / getE U m m))

/-- Embeds `Matrix.prototype.solve`: LU-decompose, then forward and back
substitution; returns a plain numeric array. -/
def solve (A : Mat) (b : Vec) : Except String Vec :=
  match lu A with
  | .error e => .error e
  | .ok LU =>
      let n := getRows A
      .ok (solveX n LU.2 (solveC n LU.1 b) n (List.replicate n 0))

/-!  ## Pointwise forms of one elimination step (used by the proofs) -/

/-- Pointwise effect of step `k` of the elimination on the working matrix `A`. -/
def stepA (n k : ℕ) (A : MF) : MF := fun i' j' =>
  if k + 1 ≤ i' ∧ i' < n ∧ k + 1 ≤ j' ∧ j' < n
  then A i' j' - A i' k / A k k * A k j' else A i' j'

/-- Pointwise effect of step `k` on `L` (the multipliers and the unit diagonal). -/
def stepL (n k : ℕ) (A L : MF) : MF := fun i' j' =>
  if k + 1 ≤ i' ∧ i' < n ∧ j' = k then A i' k / A k k else updF L k k 1 i' j'

/-- Pointwise effect of step `k` on `U` (row `k` copied from column `k` on). -/
def stepU (n k : ℕ) (A U : MF) : MF := fun t l =>
  if t = k ∧ k ≤ l ∧ l < n then A k l else U t l

/-- Loop invariant of the elimination, before step `k`, relating the working
state `(A, L, U)` to the original matrix `A0`. -/
def Inv (n k : ℕ) (A0 A L U : MF) : Prop :=
  (∀ i j, (k ≤ j ∨ i < j) → L i j = 0) ∧
  (∀ t, t < k → L t t = 1) ∧
  (∀ t j, (k ≤ t ∨ j < t) → U t j = 0) ∧
  (∀ t, t < k → U t t ≠ 0) ∧
  (∀ t j, t < k → t ≤ j → j < n → U t j = A t j) ∧
  (∀ t i, t < k → t < i → i < n → L i t * U t t = A i t) ∧
  (∀ i j, A i j = A0 i j - ∑ t ∈ Finset.range (min k (min i j)), L i t * U t j)

/-!  ## RREF (`Matrix.prototype.rref`) and rank -/

/-- Downward scan of the pivot-search `while` loop within one column: the first
row `i' ≥ i` with `M[i'][lead] ≠ 0`; the fuel counts the rows left below
(`rows - i`), and running out means the scan fell off the last row. -/
def findNZ (M : Mat) (lead : ℕ) : ℕ → ℕ → Option ℕ
  | _, 0 => none
  | i, fuel + 1 => if getE M i lead ≠ 0 then some i else findNZ M lead (i + 1) fuel

/-- Column-advancing part of the pivot-search `while` loop of `rref`: scan
column `lead` from row `r` down; on falling off the last row, reset to row `r`
and advance `lead`; reaching `lead = cols` (fuel `cols - lead` exhausted)
triggers the early return of the whole function (`none`). -/
def searchLead (M : Mat) (rows r : ℕ) : ℕ → ℕ → Option (ℕ × ℕ)
  | _, 0 => none
  | lead, fuel + 1 =>
      match findNZ M lead r (rows - r) with
      | some i => some (i, lead)
      | none => searchLead M rows r (lead + 1) fuel

/-- Row-pointer swap
`tmp = M[i]; M[i] = M[r]; M[r] = tmp`. -/
def swapRows (M : Mat) (i r : ℕ) : Mat :=
  (M.set i (M.getD r [])).set r (M.getD i [])

/-- Pivot-row normalisation `for (j = 0; j < cols; ++j) M[r][j] /= val`. -/
def scaleRow (M : Mat) (r : ℕ) (v : ℚ) (cols : ℕ) : Mat :=
  M.set r ((M.getD r []).mapIdx (fun j x => if j < cols then x / v else x))

/-- Elimination of column `lead` from row `i`
(`val = M[i][lead]; for (j = 0; j < cols; ++j) M[i][j] -= val * M[r][j]`). -/
def elimRow (M : Mat) (r lead cols : ℕ) (i : ℕ) : Mat :=
  M.set i ((M.getD i []).mapIdx
    (fun j x => if j < cols then x - getE M i lead * getE M r j else x))

/-- Elimination loop over every row other than `r`. -/
def elimOthers (M : Mat) (r lead rows cols : ℕ) : Mat :=
  (List.range rows).foldl (fun Mc i => if i = r then Mc else elimRow Mc r lead cols i) M

/-- Outer `r` loop of `rref` (fuel = remaining rows): check the early-return
guard `cols <= lead`, search for a pivot, swap it into row `r`, normalise,
eliminate the other rows, and continue with `lead` advanced past the pivot. -/
def rrefGo (rows cols : ℕ) : Mat → ℕ → ℕ → ℕ → Mat
  | M, _, _, 0 => M
  | M, r, lead, fuel + 1 =>
      if cols ≤ lead then M
      else
        match searchLead M rows r lead (cols - lead) with
        | none => M
        | some (i, lead') =>
            let M1 := swapRows M i r
            let M2 := scaleRow M1 r (getE M1 r lead') cols
            let M3 := elimOthers M2 r lead' rows cols
            rrefGo rows cols M3 (r + 1) (lead' + 1) fuel

/-- Embeds `Matrix.prototype.rref`: Gauss–Jordan elimination on a clone. -/
def rref (A : Mat) : Mat := rrefGo (getRows A) (getCols A) A 0 0 (getRows A)

/-- Embeds `Matrix.prototype.rank`:
`for (i = 0; i < rref.getCols(); ++i) result += rref.__value[i][i]`.
Reading `rref.__value[i]` past the last row yields `undefined` and the
subsequent `[i]` access throws a `TypeError`; that failure is embedded
as `none`. -/
def rank (A : Mat) : Option ℚ :=
  (List.range (getCols (rref A))).foldlM
    (fun acc i => if i < getRows (rref A) then some (acc + getE (rref A) i i) else none) 0

/-!  ## Specification-side substitution recurrences (claim C3)

The claim describes `solve` by the recurrences
`c[k] = b[k] - Σ_{j<k} L[k][j]·c[j]` and
`x[a] = (c[a] - Σ_{j>a} U[a][j]·x[j]) / U[a][a]`; the following two
definitions transcribe those recurrences, to be compared with the loops
of `solve`. -/

/-- Forward-substitution recurrence of the spec: `c[k] = b[k] − Σ_{j<k} L[k][j]·c[j]`. -/
def cSpec (L : Mat) (b : Vec) : ℕ → ℚ
  | k => b.getD k 0 - ∑ j ∈ (Finset.range k).attach, getE L k j.1 * cSpec L b j.1
termination_by k => k
decreasing_by exact Finset.mem_range.mp j.2

/-- Back-substitution recurrence of the spec:
`x[a] = (c[a] − Σ_{a<j<n} U[a][j]·x[j]) / U[a][a]`. -/
def xSpec (U : Mat) (c : ℕ → ℚ) (n : ℕ) : ℕ → ℚ
  | a => (c a - ∑ j ∈ (Finset.Ico (a + 1) n).attach, getE U a j.1 * xSpec U c n j.1) /
      getE U a a
termination_by a => n - a
decreasing_by
  have := Finset.mem_Ico.mp j.2
  omega

/-!  ## Heap model for the frame claim (C7)

`lu`, `rref` and `inverse` mutate JavaScript arrays in place; the claim is
that all mutation happens on internally created clones, never on the caller's
matrix. To state that, row arrays are modelled as heap cells: a state `St`
holds a row heap and an allocation counter, a `Matrix` object is the list of
addresses of its rows, and every array-creating construct of the source
(`fromArray`/`clone`, the `map`-based `zeros`, `identity` and `concat`)
allocates fresh addresses. The three algorithms are embedded again at this
level, write for write, so that the frame property is a statement about the
heap rather than a tautology of a pure embedding. -/

/-- Heap of row arrays plus allocation counter (addresses `≥ next` are free). -/
structure St where
  heap : ℕ → List ℚ
  next : ℕ

/-- Reads `row[j]` at row address `a`. -/
def hget (σ : St) (a j : ℕ) : ℚ := (σ.heap a).getD j 0

/-- Writes `row[j] = v` at row address `a`. -/
def hset (σ : St) (a j : ℕ) (v : ℚ) : St :=
  ⟨fun a' => if a' = a then (σ.heap a).set j v else σ.heap a', σ.next⟩

/-- Allocates fresh rows holding the given values, returning their addresses. -/
def alloc (σ : St) (rows : List (List ℚ)) : List ℕ × St :=
  (List.range' σ.next rows.length,
   ⟨fun a => if σ.next ≤ a ∧ a < σ.next + rows.length
      then rows.getD (a - σ.next) [] else σ.heap a,
    σ.next + rows.length⟩)

/-- The matrix value held by an object (its rows read from the heap). -/
def readMat (σ : St) (addrs : List ℕ) : Mat := addrs.map σ.heap

/-- Heap-level `clone` / `fromArray`: fresh rows copying the current values. -/
def cloneH (σ : St) (addrs : List ℕ) : List ℕ × St := alloc σ (readMat σ addrs)

/-- Heap-level `zeros` (`fill(x => 0)`, nested `map`s create new arrays). -/
def zerosH (σ : St) (addrs : List ℕ) : List ℕ × St :=
  alloc σ ((readMat σ addrs).map (fun r => r.map (fun _ => (0 : ℚ))))

/-- Heap-level inner `j` loop of `lu` (writes into the clone's row `i`). -/
def luHJ (n k i : ℕ) (aA aL : List ℕ) (σ : St) : St :=
  (List.range' (k + 1) (n - (k + 1))).foldl
    (fun σc j => hset σc (aA.getD i 0) j
      (hget σc (aA.getD i 0) j - hget σc (aL.getD i 0) k * hget σc (aA.getD k 0) j)) σ

/-- Heap-level middle `i` loop of `lu`. -/
def luHI (n k : ℕ) (aA aL : List ℕ) (σ : St) : St :=
  (List.range' (k + 1) (n - (k + 1))).foldl
    (fun σc i =>
      luHJ n k i aA aL
        (hset σc (aL.getD i 0) k
          (hget σc (aA.getD i 0) k / hget σc (aA.getD k 0) k))) σ

/-- Heap-level `U` copy loop of `lu`. -/
def luHU (n k : ℕ) (aA aU : List ℕ) (σ : St) : St :=
  (List.range' k (n - k)).foldl
    (fun σc l => hset σc (aU.getD k 0) l (hget σc (aA.getD k 0) l)) σ

/-- One iteration of the heap-level `k` loop of `lu` (once the pivot check
has thrown, later iterations do nothing). -/
def luHStep (n : ℕ) (aA aL aU : List ℕ) (st : Except String Unit × St) (k : ℕ) :
    Except String Unit × St :=
  match st.1 with
  | .error _ => st
  | .ok _ =>
      if jsAbs (hget st.2 (aA.getD k 0) k) < tol then
        (.error "Cannot proceed without a row exchange", st.2)
      else
        (.ok (), luHU n k aA aU (luHI n k aA aL (hset st.2 (aL.getD k 0) k 1)))

/-- Heap-level `Matrix.prototype.lu`: clone `this`, allocate the two zero
matrices, run the `k` loop (throwing on a small pivot, after which no further
iteration runs), and return the `L`, `U` objects together with the final
heap. -/
def luH (σ : St) (this : List ℕ) : Except String (List ℕ × List ℕ) × St :=
  let n := this.length
  let cA := cloneH σ this
  let cL := zerosH cA.2 this
  let cU := zerosH cL.2 this
  let res := (List.range n).foldl (luHStep n cA.1 cL.1 cU.1) (.ok (), cU.2)
  (match res.1 with
   | .error e => .error e
   | .ok _ => .ok (cL.1, cU.1),
   res.2)

/-- Heap-level pivot search within one column (reads only). -/
def findNZH (σ : St) (addrs : List ℕ) (lead : ℕ) : ℕ → ℕ → Option ℕ
  | _, 0 => none
  | i, fuel + 1 =>
      if hget σ (addrs.getD i 0) lead ≠ 0 then some i
      else findNZH σ addrs lead (i + 1) fuel

/-- Heap-level column-advancing pivot search (reads only). -/
def searchLeadH (σ : St) (addrs : List ℕ) (rows r : ℕ) : ℕ → ℕ → Option (ℕ × ℕ)
  | _, 0 => none
  | lead, fuel + 1 =>
      match findNZH σ addrs lead r (rows - r) with
      | some i => some (i, lead)
      | none => searchLeadH σ addrs rows r (lead + 1) fuel

/-- Heap-level row-pointer swap (mutates the clone's outer array only). -/
def swapH (addrs : List ℕ) (i r : ℕ) : List ℕ :=
  (addrs.set i (addrs.getD r 0)).set r (addrs.getD i 0)

/-- Heap-level pivot-row normalisation. -/
def scaleRowH (σ : St) (a : ℕ) (v : ℚ) (cols : ℕ) : St :=
  (List.range cols).foldl (fun σc j => hset σc a j (hget σc a j / v)) σ

/-- Heap-level elimination of one row (`val` captured before the `j` loop). -/
def elimRowH (σ : St) (ai ar lead cols : ℕ) : St :=
  (List.range cols).foldl
    (fun σc j => hset σc ai j (hget σc ai j - hget σ ai lead * hget σc ar j)) σ

/-- Heap-level elimination loop over every row other than `r`. -/
def elimOthersH (σ : St) (addrs : List ℕ) (r lead rows cols : ℕ) : St :=
  (List.range rows).foldl
    (fun σc i => if i = r then σc
      else elimRowH σc (addrs.getD i 0) (addrs.getD r 0) lead cols) σ

/-- Heap-level outer loop of `rref` (state: the clone's address list, which
row swaps permute, and the heap). -/
def rrefGoH (rows cols : ℕ) : List ℕ × St → ℕ → ℕ → ℕ → List ℕ × St
  | st, _, _, 0 => st
  | st, r, lead, fuel + 1 =>
      if cols ≤ lead then st
      else
        match searchLeadH st.2 st.1 rows r lead (cols - lead) with
        | none => st
        | some (i, lead') =>
            let addrs' := swapH st.1 i r
            let σ1 := scaleRowH st.2 (addrs'.getD r 0)
              (hget st.2 (addrs'.getD r 0) lead') cols
            let σ2 := elimOthersH σ1 addrs' r lead' rows cols
            rrefGoH rows cols (addrs', σ2) (r + 1) (lead' + 1) fuel

/-- Heap-level `Matrix.prototype.rref`: Gauss–Jordan on a fresh clone. -/
def rrefH (σ : St) (this : List ℕ) : List ℕ × St :=
  rrefGoH this.length ((readMat σ this).headD []).length (cloneH σ this) 0 0 this.length

/-- Heap-level `identity` (`this.map(matrixIdentity)`: fresh rows of 0/1). -/
def identityH (σ : St) (addrs : List ℕ) : List ℕ × St :=
  alloc σ ((readMat σ addrs).enum.map
    (fun p => p.2.enum.map (fun q => if p.1 = q.1 then (1 : ℚ) else 0)))

/-- Heap-level `concat` (row-wise `++`, fresh rows). -/
def concatH (σ : St) (aA aB : List ℕ) : List ℕ × St :=
  alloc σ ((readMat σ aA).enum.map (fun p => p.2 ++ (readMat σ aB).getD p.1 []))

/-- Heap-level `Matrix.prototype.inverse`: clone, augment with the identity,
run `rref` (which clones again and mutates only that clone), then slice out
the right halves into fresh rows. -/
def inverseH (σ : St) (this : List ℕ) : List ℕ × St :=
  let cA := cloneH σ this
  let cI := identityH cA.2 cA.1
  let cAug := concatH cI.2 cA.1 cI.1
  let cInv := rrefH cAug.2 cAug.1
  alloc cInv.2 ((readMat cInv.2 cInv.1).map (fun x => x.drop (x.length / 2)))

/-- A concrete two-row heap state (used by the C7 witness). -/
def sampleSt : St :=
  ⟨fun a => if a = 0 then [1, 2] else if a = 1 then [3, 4] else [], 2⟩

/-!  ## List helper lemmas -/

theorem getD_lt {α} (l : List α) (i : ℕ) (d : α) (h : i < l.length) :
    l.getD i d = l.get ⟨i, h⟩ := by
  simp [List.getD_eq_getElem?_getD, List.getElem?_eq_getElem h]

theorem getD_ge {α} (l : List α) (i : ℕ) (d : α) (h : l.length ≤ i) :
    l.getD i d = d := by
  rw [List.getD_eq_getElem?_getD, List.getElem?_eq_none (by simpa using h)]
  rfl

theorem getD_map_of_lt {α β} (l : List α) (f : α → β) (j : ℕ) (d : β) (d' : α)
    (h : j < l.length) : (l.map f).getD j d = f (l.getD j d') := by
  rw [getD_lt _ _ _ (by simpa using h), getD_lt _ _ _ h]
  simp

theorem getD_range (n i : ℕ) (h : i < n) : (List.range n).getD i 0 = i := by
  rw [getD_lt _ _ _ (by simpa using h)]
  simp

theorem getD_map_range {β} (g : ℕ → β) (n i : ℕ) (d : β) (h : i < n) :
    ((List.range n).map g).getD i d = g i := by
  rw [getD_map_of_lt _ _ _ _ 0 (by simpa using h), getD_range n i h]

theorem enumFrom_map_eq {β} (f : ℕ × ℚ → β) :
    ∀ (l : List ℚ) (s : ℕ),
      (l.enumFrom s).map f = (List.range l.length).map (fun i => f (s + i, l.getD i 0))
  | [], _ => rfl
  | x :: xs, s => by
    rw [List.enumFrom_cons, List.map_cons, enumFrom_map_eq f xs (s + 1)]
    simp only [List.length_cons, List.range_succ_eq_map, List.map_cons, List.map_map]
    refine congrArg₂ _ (by simp) ?_
    refine List.map_congr_left (fun i _ => ?_)
    simp [Nat.add_comm, Nat.add_assoc, Nat.add_left_comm]

theorem enum_map_eq {β} (f : ℕ × ℚ → β) (l : List ℚ) :
    l.enum.map f = (List.range l.length).map (fun i => f (i, l.getD i 0)) := by
  rw [List.enum, enumFrom_map_eq]
  simp

theorem enumFrom_foldl_add (f : ℕ → ℚ → ℚ) :
    ∀ (l : List ℚ) (s : ℕ) (c : ℚ),
      (l.enumFrom s).foldl (fun acc q => acc + f q.1 q.2) c =
        c + ∑ j ∈ Finset.range l.length, f (s + j) (l.getD j 0)
  | [], _, c => by simp
  | x :: xs, s, c => by
    rw [List.enumFrom_cons, List.foldl_cons, enumFrom_foldl_add f xs (s + 1) (c + f s x)]
    have hpeel : ∑ j ∈ Finset.range (x :: xs).length, f (s + j) ((x :: xs).getD j 0)
        = (∑ j ∈ Finset.range xs.length, f (s + (j + 1)) ((x :: xs).getD (j + 1) 0))
            + f (s + 0) ((x :: xs).getD 0 0) := by
      rw [List.length_cons, Finset.sum_range_succ']
    rw [hpeel]
    simp only [List.getD_cons_succ, List.getD_cons_zero, Nat.add_zero]
    have hsum : ∑ j ∈ Finset.range xs.length, f (s + (j + 1)) (xs.getD j 0)
        = ∑ j ∈ Finset.range xs.length, f (s + 1 + j) (xs.getD j 0) :=
      Finset.sum_congr rfl (fun j _ => by rw [show s + (j + 1) = s + 1 + j from by omega])
    rw [hsum]
    ring

theorem enum_foldl_add (f : ℕ → ℚ → ℚ) (l : List ℚ) (c : ℚ) :
    l.enum.foldl (fun acc q => acc + f q.1 q.2) c =
      c + ∑ j ∈ Finset.range l.length, f j (l.getD j 0) := by
  rw [List.enum, enumFrom_foldl_add]
  simp

theorem range_map_getD {α} (n : ℕ) (r : List α) (d : α) (h : r.length = n) :
    (List.range n).map (fun i => r.getD i d) = r := by
  apply List.ext_getElem
  · simp [h]
  · intro i h1 h2
    have hi : i < r.length := h2
    simp only [List.getElem_map, List.getElem_range]
    rw [getD_lt r i d hi]
    simp

/-!  ## Closed form of transpose -/

theorem transposeStep_eq (prev : Mat) (next : List ℚ) :
    transposeStep prev next =
      (List.range next.length).map (fun i => prev.getD i [] ++ [next.getD i 0]) := by
  unfold transposeStep
  rw [enum_map_eq]

theorem foldl_transposeStep (n : ℕ) :
    ∀ (rows : Mat) (g : ℕ → List ℚ), (∀ r ∈ rows, r.length = n) →
      rows.foldl transposeStep ((List.range n).map g) =
        (List.range n).map (fun i => g i ++ rows.map (fun r => r.getD i 0))
  | [], g, _ => by simp
  | r :: rs, g, hwf => by
    rw [List.foldl_cons, transposeStep_eq]
    have hr : r.length = n := hwf r (List.mem_cons_self r rs)
    have hstep : (List.range r.length).map
        (fun i => ((List.range n).map g).getD i [] ++ [r.getD i 0]) =
        (List.range n).map (fun i => g i ++ [r.getD i 0]) := by
      rw [hr]
      refine List.map_congr_left (fun i hi => ?_)
      rw [getD_map_range g n i [] (List.mem_range.mp hi)]
    rw [hstep, foldl_transposeStep n rs (fun i => g i ++ [r.getD i 0])
      (fun x hx => hwf x (List.mem_cons_of_mem r hx))]
    refine List.map_congr_left (fun i _ => ?_)
    simp

theorem transpose_closed (A : Mat) (n : ℕ) (hA : A ≠ []) (hwf : ∀ r ∈ A, r.length = n) :
    transpose A = (List.range n).map (fun i => A.map (fun r => r.getD i 0)) := by
  match A with
  | [] => exact absurd rfl hA
  | r :: rs =>
    unfold transpose
    rw [List.foldl_cons, transposeStep_eq]
    have hr : r.length = n := hwf r (List.mem_cons_self r rs)
    have h0 : (List.range r.length).map (fun i => ([] : Mat).getD i [] ++ [r.getD i 0]) =
        (List.range n).map (fun i => [r.getD i 0]) := by
      rw [hr]
      exact List.map_congr_left (fun i _ => by simp)
    rw [h0]
    have := foldl_transposeStep n rs (fun i => [r.getD i 0])
      (fun x hx => hwf x (List.mem_cons_of_mem r hx))
    rw [this]
    refine List.map_congr_left (fun i _ => ?_)
    simp

theorem transpose_entry (A : Mat) (m n : ℕ) (hwf : wellFormed A m n) :
    ∀ i j, getE (transpose A) i j = getE A j i := by
  intro i j
  rcases eq_or_ne A [] with rfl | hA
  · simp [transpose, getE]
  rw [transpose_closed A n hA hwf.2]
  unfold getE
  by_cases hi : i < n
  · rw [getD_map_range _ n i [] hi]
    by_cases hj : j < A.length
    · rw [getD_map_of_lt A _ j 0 [] hj]
    · rw [getD_ge (A.map _) j 0 (by simpa using Nat.le_of_not_lt hj),
        getD_ge A j [] (Nat.le_of_not_lt hj)]
      rfl
  · rw [getD_ge ((List.range n).map _) i [] (by simpa using Nat.le_of_not_lt hi)]
    simp only [List.getD_nil]
    by_cases hj : j < A.length
    · have hrow : (A.getD j []).length = n :=
        hwf.2 _ (by rw [getD_lt A j [] hj]; exact A.get_mem _ _)
      rw [getD_ge (A.getD j []) i 0 (by omega)]
    · rw [getD_ge A j [] (Nat.le_of_not_lt hj)]
      rfl

theorem transpose_shape (A : Mat) (m n : ℕ) (hwf : wellFormed A m n) (hm : 1 ≤ m) :
    wellFormed (transpose A) n m := by
  have hA : A ≠ [] := by
    intro h
    rw [h] at hwf
    obtain ⟨h1, -⟩ := hwf
    simp at h1
    omega
  rw [transpose_closed A n hA hwf.2]
  constructor
  · simp
  · intro r hr
    simp only [List.mem_map] at hr
    obtain ⟨i, _, rfl⟩ := hr
    simp [hwf.1]

/-!  ## Claim theorems C8 and C9 -/

/-- C8, counterexample: for the 2×0 matrix `[[],[]]` the double transpose is `[]`,
not the original matrix, so the involution does not hold for every matrix. -/
theorem C8_transpose_counterexample :
    transpose (transpose ([[], []] : Mat)) ≠ [[], []] := by decide

/-- C8 (amended): for every well-formed m×n matrix with at least one row, the
transpose is the n×m matrix with entry [i][j] equal to A[j][i]; the double
transpose equals A whenever A is empty or has at least one column (for a
nonempty matrix with zero columns the double transpose collapses to `[]`). -/
theorem C8_transpose_involution_shape (A : Mat) (m n : ℕ) (hwf : wellFormed A m n) :
    (1 ≤ m → wellFormed (transpose A) n m ∧ ∀ i j, getE (transpose A) i j = getE A j i) ∧
    (A = [] ∨ 1 ≤ n → transpose (transpose A) = A) := by
  constructor
  · intro hm
    exact ⟨transpose_shape A m n hwf hm, transpose_entry A m n hwf⟩
  · rintro (rfl | hn)
    · rfl
    · match A, hwf with
      | [], _ => rfl
      | r :: rs, hwf =>
        have hwf2 := hwf.2
        have hA : (r :: rs : Mat) ≠ [] := by simp
        rw [transpose_closed (r :: rs) n hA hwf2]
        have hT : ∀ row ∈ (List.range n).map (fun i => (r :: rs).map (fun x => x.getD i 0)),
            row.length = (r :: rs).length := by
          intro row hrow
          simp only [List.mem_map] at hrow
          obtain ⟨i, _, rfl⟩ := hrow
          simp
        have hTne : (List.range n).map (fun i => (r :: rs).map (fun x => x.getD i 0)) ≠ [] := by
          simp only [ne_eq, List.map_eq_nil_iff, List.range_eq_nil]
          omega
        rw [transpose_closed _ (r :: rs).length hTne hT]
        have hout : ∀ j < (r :: rs).length,
            ((List.range n).map (fun i => (r :: rs).map (fun x => x.getD i 0))).map
              (fun row => row.getD j 0) = (r :: rs).getD j [] := by
          intro j hj
          rw [List.map_map]
          have : ((fun row => row.getD j 0) ∘ fun i => (r :: rs).map fun x => x.getD i 0) =
              fun i => ((r :: rs).getD j []).getD i 0 := by
            funext i
            simp only [Function.comp_apply]
            rw [getD_map_of_lt (r :: rs) _ j 0 [] hj]
          rw [this]
          exact range_map_getD n _ 0 (hwf2 _ (by rw [getD_lt _ j [] hj]; exact List.get_mem _ _ _))
        have : (List.range (r :: rs).length).map
            (fun j => ((List.range n).map (fun i => (r :: rs).map (fun x => x.getD i 0))).map
              (fun row => row.getD j 0)) =
            (List.range (r :: rs).length).map (fun j => (r :: rs).getD j []) := by
          refine List.map_congr_left (fun j hj => ?_)
          exact hout j (List.mem_range.mp hj)
        rw [this, range_map_getD _ _ [] rfl]

/-- C8 witness: concrete instance at the 3×2 matrix from the spec's example. -/
theorem C8_transpose_witness :
    wellFormed [[-1, 2], [3, 4], [-8, 2]] 3 2 ∧
      (wellFormed (transpose [[-1, 2], [3, 4], [-8, 2]]) 2 3 ∧
        ∀ i j, getE (transpose [[-1, 2], [3, 4], [-8, 2]]) i j =
          getE [[-1, 2], [3, 4], [-8, 2]] j i) ∧
      transpose (transpose [[-1, 2], [3, 4], [-8, 2]]) = [[-1, 2], [3, 4], [-8, 2]] :=
  ⟨by decide,
   (C8_transpose_involution_shape [[-1, 2], [3, 4], [-8, 2]] 3 2 (by decide)).1 (by decide),
   (C8_transpose_involution_shape [[-1, 2], [3, 4], [-8, 2]] 3 2 (by decide)).2
     (Or.inr (by decide))⟩

/-!  ## Closed forms of the LU loops -/

theorem updF_same (X : MF) (i j : ℕ) (v : ℚ) : updF X i j v i j = v := by
  simp [updF]

theorem updF_ne (X : MF) {i j i' j' : ℕ} (v : ℚ) (h : ¬(i' = i ∧ j' = j)) :
    updF X i j v i' j' = X i' j' := by
  simp only [updF, if_neg h]

theorem luJ_fold_eq (n k i : ℕ) (L : MF) (hik : i ≠ k) :
    ∀ (m j0 : ℕ) (A : MF), j0 + m = n →
      (List.range' j0 m).foldl (fun Ac j => updF Ac i j (Ac i j - L i k * Ac k j)) A =
        fun i' j' => if i' = i ∧ j0 ≤ j' ∧ j' < n then A i j' - L i k * A k j' else A i' j'
  | 0, j0, A, hj0 => by
    funext i' j'
    rw [show List.range' j0 0 = [] from rfl, List.foldl_nil, if_neg (by omega)]
  | m + 1, j0, A, hj0 => by
    have hj0n : j0 < n := by omega
    rw [List.range'_succ j0 m 1, List.foldl_cons,
      luJ_fold_eq n k i L hik m (j0 + 1) _ (by omega)]
    funext i' j'
    by_cases h1 : i' = i ∧ j0 + 1 ≤ j' ∧ j' < n
    · rw [if_pos h1, if_pos ⟨h1.1, by omega, h1.2.2⟩,
        updF_ne A _ (fun hc => by omega), updF_ne A _ (fun hc => hik (by omega))]
    · rw [if_neg h1]
      by_cases h2 : i' = i ∧ j' = j0
      · obtain ⟨rfl, rfl⟩ := h2
        rw [updF_same, if_pos ⟨rfl, le_refl _, hj0n⟩]
      · rw [updF_ne A _ h2, if_neg (fun hc => by
          rcases Nat.lt_or_ge j' (j0 + 1) with hlt | hge
          · exact h2 ⟨hc.1, by omega⟩
          · exact h1 ⟨hc.1, hge, hc.2.2⟩)]

theorem luJ_eq (n k i : ℕ) (A L : MF) (hik : i ≠ k) (hkn : k + 1 ≤ n) :
    luJ n k i L A =
      fun i' j' => if i' = i ∧ k + 1 ≤ j' ∧ j' < n then A i j' - L i k * A k j'
        else A i' j' :=
  luJ_fold_eq n k i L hik (n - (k + 1)) (k + 1) A (by omega)

theorem luI_fold_eq (n k : ℕ) :
    ∀ (m i0 : ℕ) (A L : MF), i0 + m = n → k < i0 →
      (List.range' i0 m).foldl
        (fun p i =>
          let L' := updF p.2 i k (p.1 i k / p.1 k k)
          (luJ n k i L' p.1, L')) (A, L) =
      (fun i' j' => if i0 ≤ i' ∧ i' < n ∧ k + 1 ≤ j' ∧ j' < n
          then A i' j' - A i' k / A k k * A k j' else A i' j',
       fun i' j' => if i0 ≤ i' ∧ i' < n ∧ j' = k then A i' k / A k k else L i' j')
  | 0, i0, A, L, h0, hki => by
    rw [show List.range' i0 0 = [] from rfl, List.foldl_nil]
    refine Prod.ext (funext fun i' => funext fun j' => ?_) (funext fun i' => funext fun j' => ?_)
    · exact (if_neg (by omega)).symm
    · exact (if_neg (by omega)).symm
  | m + 1, i0, A, L, h0, hki => by
    have hi0n : i0 < n := by omega
    rw [List.range'_succ i0 m 1, List.foldl_cons]
    simp only
    rw [luI_fold_eq n k m (i0 + 1) _ _ (by omega) (by omega)]
    have hAJ : ∀ a b, luJ n k i0 (updF L i0 k (A i0 k / A k k)) A a b =
        if a = i0 ∧ k + 1 ≤ b ∧ b < n then A i0 b - A i0 k / A k k * A k b
        else A a b := by
      intro a b
      rw [luJ_eq n k i0 A _ (by omega) (by omega), updF_same]
    have hAJk : ∀ b, luJ n k i0 (updF L i0 k (A i0 k / A k k)) A k b = A k b := by
      intro b
      rw [hAJ]
      exact if_neg (fun hc => by omega)
    have hAJcol : ∀ a, luJ n k i0 (updF L i0 k (A i0 k / A k k)) A a k = A a k := by
      intro a
      rw [hAJ]
      exact if_neg (fun hc => by omega)
    have hAJne : ∀ a b, a ≠ i0 → luJ n k i0 (updF L i0 k (A i0 k / A k k)) A a b = A a b := by
      intro a b h
      rw [hAJ]
      exact if_neg (fun hc => h hc.1)
    refine Prod.ext (funext fun i' => funext fun j' => ?_) (funext fun i' => funext fun j' => ?_)
    · simp only
      by_cases h1 : i0 + 1 ≤ i' ∧ i' < n ∧ k + 1 ≤ j' ∧ j' < n
      · rw [if_pos h1, if_pos (show i0 ≤ i' ∧ i' < n ∧ k + 1 ≤ j' ∧ j' < n from
          ⟨by omega, h1.2⟩), hAJne i' j' (by omega), hAJne i' k (by omega), hAJk k, hAJk j']
      · rw [if_neg h1]
        by_cases h2 : i' = i0 ∧ k + 1 ≤ j' ∧ j' < n
        · rw [hAJ, if_pos h2, if_pos (show i0 ≤ i' ∧ i' < n ∧ k + 1 ≤ j' ∧ j' < n from
            ⟨by omega, by omega, h2.2⟩)]
          obtain ⟨rfl, -, -⟩ := h2
          rfl
        · rw [hAJ, if_neg h2, if_neg (fun hc => by
            rcases Nat.lt_or_ge i' (i0 + 1) with hlt | hge
            · exact h2 ⟨by omega, hc.2.2⟩
            · exact h1 ⟨hge, hc.2⟩)]
    · simp only
      by_cases h1 : i0 + 1 ≤ i' ∧ i' < n ∧ j' = k
      · rw [if_pos h1, if_pos (show i0 ≤ i' ∧ i' < n ∧ j' = k from ⟨by omega, h1.2⟩),
          hAJne i' k (by omega), hAJk k]
      · rw [if_neg h1]
        by_cases h2 : i' = i0 ∧ j' = k
        · obtain ⟨rfl, rfl⟩ := h2
          rw [updF_same, if_pos ⟨le_refl _, hi0n, rfl⟩]
        · rw [updF_ne L _ h2, if_neg (fun hc => by
            rcases Nat.lt_or_ge i' (i0 + 1) with hlt | hge
            · exact h2 ⟨by omega, hc.2.2⟩
            · exact h1 ⟨hge, hc.2⟩)]

theorem luI_eq (n k : ℕ) (A L : MF) (hkn : k < n) :
    luI n k A L =
      (fun i' j' => if k + 1 ≤ i' ∧ i' < n ∧ k + 1 ≤ j' ∧ j' < n
          then A i' j' - A i' k / A k k * A k j' else A i' j',
       fun i' j' => if k + 1 ≤ i' ∧ i' < n ∧ j' = k then A i' k / A k k else L i' j') :=
  luI_fold_eq n k (n - (k + 1)) (k + 1) A L (by omega) (by omega)

theorem luU_fold_eq (n k : ℕ) (A : MF) :
    ∀ (m l0 : ℕ) (U : MF), l0 + m = n →
      (List.range' l0 m).foldl (fun Uc l => updF Uc k l (A k l)) U =
        fun t l => if t = k ∧ l0 ≤ l ∧ l < n then A k l else U t l
  | 0, l0, U, h0 => by
    funext t l
    rw [show List.range' l0 0 = [] from rfl, List.foldl_nil, if_neg (by omega)]
  | m + 1, l0, U, h0 => by
    have hl0n : l0 < n := by omega
    rw [List.range'_succ l0 m 1, List.foldl_cons, luU_fold_eq n k A m (l0 + 1) _ (by omega)]
    funext t l
    by_cases h1 : t = k ∧ l0 + 1 ≤ l ∧ l < n
    · rw [if_pos h1, if_pos ⟨h1.1, by omega, h1.2.2⟩]
    · rw [if_neg h1]
      by_cases h2 : t = k ∧ l = l0
      · obtain ⟨rfl, rfl⟩ := h2
        rw [updF_same, if_pos ⟨rfl, le_refl _, hl0n⟩]
      · rw [updF_ne U _ h2, if_neg (fun hc => by
          rcases Nat.lt_or_ge l (l0 + 1) with hlt | hge
          · exact h2 ⟨hc.1, by omega⟩
          · exact h1 ⟨hc.1, hge, hc.2.2⟩)]

theorem luU_eq (n k : ℕ) (A U : MF) (hkn : k < n) :
    luU n k A U = fun t l => if t = k ∧ k ≤ l ∧ l < n then A k l else U t l :=
  luU_fold_eq n k A (n - k) k U (by omega)

theorem gaussStep_eq (n k : ℕ) (st : MF × MF × MF) (hkn : k < n) :
    gaussStep n st k = (stepA n k st.1, stepL n k st.1 st.2.1, stepU n k st.1 st.2.2) := by
  obtain ⟨A, L, U⟩ := st
  unfold gaussStep
  simp only
  rw [luI_eq n k A (updF L k k 1) hkn]
  simp only
  rw [luU_eq n k _ U hkn]
  refine Prod.ext rfl (Prod.ext rfl ?_)
  simp only
  funext t l
  unfold stepU
  by_cases h : t = k ∧ k ≤ l ∧ l < n
  · rw [if_pos h, if_pos h, if_neg (fun hc => by omega)]
  · rw [if_neg h, if_neg h]

/-!  ## The elimination invariant -/

theorem tol_pos : (0 : ℚ) < tol := by norm_num [tol]

theorem inv_zero (n : ℕ) (A0 : MF) :
    Inv n 0 A0 A0 (fun _ _ => 0) (fun _ _ => 0) := by
  refine ⟨fun i j _ => rfl, fun t ht => absurd ht (Nat.not_lt_zero t), fun t j _ => rfl,
    fun t ht => absurd ht (Nat.not_lt_zero t),
    fun t j ht => absurd ht (Nat.not_lt_zero t),
    fun t i ht => absurd ht (Nat.not_lt_zero t),
    fun i j => by simp⟩

theorem inv_step (n k : ℕ) (A0 A L U : MF) (hkn : k < n) (hInv : Inv n k A0 A L U)
    (hpiv : ¬jsAbs (A k k) < tol) :
    Inv n (k + 1) A0 (stepA n k A) (stepL n k A L) (stepU n k A U) := by
  obtain ⟨hL0, hL1, hU0, hU1, hUA, hLU, hA⟩ := hInv
  have hp : A k k ≠ 0 := by
    intro h
    rw [h] at hpiv
    exact hpiv (by rw [show jsAbs 0 = 0 from by norm_num [jsAbs]]; exact tol_pos)
  have hLold : ∀ i t, t < k → stepL n k A L i t = L i t := by
    intro i t ht
    unfold stepL
    rw [if_neg (fun hc => by omega), updF_ne L _ (fun hc => by omega)]
  have hUold : ∀ t j, t ≠ k → stepU n k A U t j = U t j := by
    intro t j ht
    unfold stepU
    rw [if_neg (fun hc => ht hc.1)]
  refine ⟨?_, ?_, ?_, ?_, ?_, ?_, ?_⟩
  · -- L zeros at and above the new frontier
    intro i j hj
    unfold stepL
    rw [if_neg (fun hc => by omega), updF_ne L _ (fun hc => by omega)]
    exact hL0 i j (by omega)
  · -- unit diagonal
    intro t ht
    rcases Nat.lt_or_ge t k with h | h
    · rw [hLold t t h]
      exact hL1 t h
    · have : t = k := by omega
      subst this
      unfold stepL
      rw [if_neg (fun hc => by omega), updF_same]
  · -- U zeros below the diagonal and beyond the frontier
    intro t j hj
    unfold stepU
    rcases eq_or_ne t k with rfl | ht
    · rw [if_neg (fun hc => by omega)]
      exact hU0 t j (by omega)
    · rw [if_neg (fun hc => ht hc.1)]
      exact hU0 t j (by omega)
  · -- nonzero pivots on U's diagonal
    intro t ht
    rcases eq_or_ne t k with rfl | htk
    · unfold stepU
      rw [if_pos ⟨rfl, le_refl _, hkn⟩]
      exact hp
    · rw [hUold t t htk]
      exact hU1 t (by omega)
  · -- U rows agree with the frozen rows of A
    intro t j ht htj hjn
    rcases eq_or_ne t k with rfl | htk
    · unfold stepU stepA
      rw [if_pos ⟨rfl, htj, hjn⟩, if_neg (fun hc => by omega)]
    · have htk' : t < k := by omega
      rw [hUold t j htk]
      unfold stepA
      rw [if_neg (fun hc => by omega)]
      exact hUA t j htk' htj hjn
  · -- multiplier relation L[i][t] * U[t][t] = A[i][t]
    intro t i ht hti hin
    rcases eq_or_ne t k with rfl | htk
    · unfold stepL stepU stepA
      rw [if_pos ⟨by omega, hin, rfl⟩, if_pos ⟨rfl, le_refl _, hkn⟩,
        if_neg (fun hc => by omega)]
      exact div_mul_cancel₀ (A i t) hp
    · have htk' : t < k := by omega
      rw [hLold i t htk', hUold t t htk]
      unfold stepA
      rw [if_neg (fun hc => by omega)]
      exact hLU t i htk' hti hin
  · -- the elimination ledger for A
    intro i j
    have hterm_old : ∀ t, t < k →
        stepL n k A L i t * stepU n k A U t j = L i t * U t j := by
      intro t ht
      rw [hLold i t ht, hUold t j (by omega)]
    rcases Nat.lt_or_ge i (k + 1) with hik | hik
    · -- row i ≤ k : nothing changes in row i, nor in the summed terms
      have hmin : min (k + 1) (min i j) = min k (min i j) := by omega
      have hAij : stepA n k A i j = A i j := by
        unfold stepA
        exact if_neg (fun hc => by omega)
      rw [hAij, hmin, hA i j]
      refine congrArg₂ _ rfl (Finset.sum_congr rfl (fun t htmem => ?_))
      exact (hterm_old t (by have := Finset.mem_range.mp htmem; omega)).symm
    · rcases Nat.lt_or_ge j (k + 1) with hjk | hjk
      · -- column j ≤ k : same as above
        have hmin : min (k + 1) (min i j) = min k (min i j) := by omega
        have hAij : stepA n k A i j = A i j := by
          unfold stepA
          exact if_neg (fun hc => by omega)
        rw [hAij, hmin, hA i j]
        refine congrArg₂ _ rfl (Finset.sum_congr rfl (fun t htmem => ?_))
        exact (hterm_old t (by have := Finset.mem_range.mp htmem; omega)).symm
      · -- i, j both beyond k
        have hmin' : min (k + 1) (min i j) = k + 1 := by omega
        have hmin : min k (min i j) = k := by omega
        rw [hmin', Finset.sum_range_succ]
        have hsum_old : ∑ t ∈ Finset.range k, stepL n k A L i t * stepU n k A U t j =
            ∑ t ∈ Finset.range k, L i t * U t j :=
          Finset.sum_congr rfl (fun t htmem => hterm_old t (Finset.mem_range.mp htmem))
        rw [hsum_old]
        rcases Nat.lt_or_ge i n with hin | hin
        · rcases Nat.lt_or_ge j n with hjn | hjn
          · -- the genuinely updated block
            have hAij : stepA n k A i j = A i j - A i k / A k k * A k j := by
              unfold stepA
              exact if_pos ⟨hik, hin, hjk, hjn⟩
            have hLik : stepL n k A L i k = A i k / A k k := by
              unfold stepL
              exact if_pos ⟨hik, hin, rfl⟩
            have hUkj : stepU n k A U k j = A k j := by
              unfold stepU
              exact if_pos ⟨rfl, by omega, hjn⟩
            rw [hAij, hLik, hUkj, hA i j, hmin]
            ring
          · -- j outside the matrix: U[k][j] = 0
            have hAij : stepA n k A i j = A i j := by
              unfold stepA
              exact if_neg (fun hc => by omega)
            have hUkj : stepU n k A U k j = 0 := by
              unfold stepU
              rw [if_neg (fun hc => by omega)]
              exact hU0 k j (Or.inl (le_refl k))
            rw [hAij, hUkj, mul_zero, add_zero, hA i j, hmin]
        · -- i outside the matrix: L[i][k] = 0
          have hAij : stepA n k A i j = A i j := by
            unfold stepA
            exact if_neg (fun hc => by omega)
          have hLik : stepL n k A L i k = 0 := by
            unfold stepL
            rw [if_neg (fun hc => by omega), updF_ne L _ (fun hc => by omega)]
            exact hL0 i k (Or.inl (le_refl k))
          rw [hAij, hLik, zero_mul, add_zero, hA i j, hmin]

/-!  ## Claim theorems C2 and C6 -/

theorem getCols_eq (A : Mat) (m n : ℕ) (h : wellFormed A m n) (hm : 1 ≤ m) :
    getCols A = n := by
  match A with
  | [] =>
    obtain ⟨h1, -⟩ := h
    simp at h1
    omega
  | r :: rs => exact h.2 r (List.mem_cons_self r rs)

theorem getRows_eq (A : Mat) (m n : ℕ) (h : wellFormed A m n) : getRows A = m := h.1

theorem row_length (A : Mat) (m n : ℕ) (h : wellFormed A m n) (i : ℕ) (hi : i < m) :
    (A.getD i []).length = n := by
  have hil : i < A.length := by rw [h.1]; exact hi
  exact h.2 _ (by rw [getD_lt A i [] hil]; exact A.get_mem _ _)

theorem dotRow_closed (prec p : ℕ) (B : Mat) (a : List ℚ) (hB : (B.headD []).length = p) :
    dotRow prec B a = (List.range p).map
      (fun j => ∑ k ∈ Finset.range a.length, jsRound (a.getD k 0 * getE B k j) prec) := by
  unfold dotRow
  rw [enum_map_eq, hB]
  refine List.map_congr_left (fun j _ => ?_)
  rw [enum_foldl_add (fun k x => jsRound (x * getE B k j) prec) a 0]
  rw [zero_add]

/-- C2: the dot product of an m×n matrix with an n×p matrix is the m×p matrix
whose entry [i][j] is the sum over k of round(A[i][k] * B[k][j], precision),
with each multiplicative term individually rounded before accumulation. -/
theorem C2_dot_rounds_each_term (prec m n p : ℕ) (A B : Mat)
    (hA : wellFormed A m n) (hB : wellFormed B n p) (hn : 1 ≤ n) :
    wellFormed (dot prec A B) m p ∧
      ∀ i j, i < m → j < p →
        getE (dot prec A B) i j =
          ∑ k ∈ Finset.range n, jsRound (getE A i k * getE B k j) prec := by
  have hBhead : (B.headD []).length = p := by
    match B, hB with
    | [], hB => obtain ⟨h1, -⟩ := hB; simp at h1; omega
    | b :: bs, hB => exact hB.2 b (List.mem_cons_self b bs)
  constructor
  · constructor
    · simpa [dot] using hA.1
    · intro r hr
      simp only [dot, List.mem_map] at hr
      obtain ⟨a, ha, rfl⟩ := hr
      rw [dotRow_closed prec p B a hBhead]
      simp
  · intro i j hi hj
    unfold dot getE
    rw [getD_map_of_lt A _ i [] [] (by rw [hA.1]; exact hi)]
    rw [dotRow_closed prec p B _ hBhead]
    rw [getD_map_range _ p j 0 hj]
    rw [row_length A m n hA i hi]
    rfl

/-- C2 witness: the spec's concrete dot-product example at precision 4. -/
theorem C2_dot_witness :
    (wellFormed [[1, 2, 3], [4, 5, 6]] 2 3 ∧ wellFormed [[7, 8], [9, 10], [11, 12]] 3 2) ∧
      (∀ i j, i < 2 → j < 2 →
        getE (dot 4 [[1, 2, 3], [4, 5, 6]] [[7, 8], [9, 10], [11, 12]]) i j =
          ∑ k ∈ Finset.range 3,
            jsRound (getE [[1, 2, 3], [4, 5, 6]] i k *
              getE [[7, 8], [9, 10], [11, 12]] k j) 4) :=
  ⟨⟨by decide, by decide⟩,
   (C2_dot_rounds_each_term 4 2 3 2 [[1, 2, 3], [4, 5, 6]] [[7, 8], [9, 10], [11, 12]]
     (by decide) (by decide) (by decide)).2⟩

/-- C6: add, subtract and multiply on a Matrix argument fail with the
shape-mismatch error exactly when the argument's row or column count differs
from the receiver's; a scalar argument is broadcast to every element and the
operation always succeeds. -/
theorem C6_shape_mismatch_errors (A M : Mat) (m n q p : ℕ)
    (hA : wellFormed A m n) (hM : wellFormed M q p) (hm : 1 ≤ m) (hq : 1 ≤ q) :
    (add A (.matrix M) = .error "Matrices do not match, cannot add" ↔ (n ≠ p ∨ m ≠ q)) ∧
    (subtract A (.matrix M) = .error "Matrices do not match, cannot subtract" ↔
      (n ≠ p ∨ m ≠ q)) ∧
    (multiply A (.matrix M) = .error "Matrices do not match, cannot create hadamard product" ↔
      (n ≠ p ∨ m ≠ q)) ∧
    (∀ s : ℚ, ∃ V, add A (.scalar s) = .ok V ∧ wellFormed V m n ∧
      ∀ i j, i < m → j < n → getE V i j = getE A i j + s) ∧
    (∀ s : ℚ, ∃ V, subtract A (.scalar s) = .ok V ∧ wellFormed V m n ∧
      ∀ i j, i < m → j < n → getE V i j = getE A i j - s) ∧
    (∀ s : ℚ, ∃ V, multiply A (.scalar s) = .ok V ∧ wellFormed V m n ∧
      ∀ i j, i < m → j < n → getE V i j = getE A i j * s) := by
  have hcA := getCols_eq A m n hA hm
  have hcM := getCols_eq M q p hM hq
  have hrA : getRows A = m := hA.1
  have hrM : getRows M = q := hM.1
  have hmatch : ∀ msg body, ((if getCols A ≠ getCols M ∨ getRows A ≠ getRows M then
      (.error msg : Except String Mat) else .ok body) = .error msg ↔ (n ≠ p ∨ m ≠ q)) := by
    intro msg body
    rw [hcA, hcM, hrA, hrM]
    by_cases h : n ≠ p ∨ m ≠ q
    · simp [h]
    · simp [h]
  have hscalar : ∀ (op : ℚ → ℚ → ℚ) (s : ℚ),
      wellFormed (A.map (fun row => row.map (fun x => op x s))) m n ∧
      ∀ i j, i < m → j < n →
        getE (A.map (fun row => row.map (fun x => op x s))) i j = op (getE A i j) s := by
    intro op s
    refine ⟨⟨by simpa using hA.1, ?_⟩, ?_⟩
    · intro r hr
      simp only [List.mem_map] at hr
      obtain ⟨a, ha, rfl⟩ := hr
      simpa using hA.2 a ha
    · intro i j hi hj
      unfold getE
      rw [getD_map_of_lt A _ i [] [] (by rw [hA.1]; exact hi)]
      rw [getD_map_of_lt _ _ j 0 0 (by rw [row_length A m n hA i hi]; exact hj)]
  refine ⟨hmatch _ _, hmatch _ _, hmatch _ _, ?_, ?_, ?_⟩
  · exact fun s => ⟨_, rfl, (hscalar (fun x y => x + y) s).1, (hscalar (fun x y => x + y) s).2⟩
  · exact fun s => ⟨_, rfl, (hscalar (fun x y => x - y) s).1, (hscalar (fun x y => x - y) s).2⟩
  · exact fun s => ⟨_, rfl, (hscalar (fun x y => x * y) s).1, (hscalar (fun x y => x * y) s).2⟩

/-- C6 witness: concrete instance — a 1×2 receiver with a 2×1 argument
(mismatch) and with itself (match). -/
theorem C6_shape_mismatch_witness :
    (wellFormed [[1, 2]] 1 2 ∧ wellFormed [[3], [4]] 2 1) ∧
      (add [[1, 2]] (.matrix [[3], [4]]) = .error "Matrices do not match, cannot add" ∧
        ∃ V, add [[1, 2]] (.scalar 5) = .ok V ∧ wellFormed V 1 2 ∧
          ∀ i j, i < 1 → j < 2 → getE V i j = getE [[1, 2]] i j + 5) := by
  have h := C6_shape_mismatch_errors [[1, 2]] [[3], [4]] 1 2 2 1
    (by decide) (by decide) (by decide) (by decide)
  exact ⟨⟨by decide, by decide⟩, h.1.mpr (by decide), h.2.2.2.1 5⟩

/-!  ## Running the LU elimination -/

theorem luFold_ok (n : ℕ) (A0 : MF) :
    ∀ (m k : ℕ) (A L U : MF), k + m = n → Inv n k A0 A L U →
      ∀ st' : MF × MF × MF,
        (List.range' k m).foldlM (luStep n) (A, L, U) = .ok st' →
        Inv n n A0 st'.1 st'.2.1 st'.2.2
  | 0, k, A, L, U, hm, hInv, st', h => by
    rw [show List.range' k 0 = [] from rfl, List.foldlM_nil] at h
    have h' : (Except.ok (A, L, U) : Except String (MF × MF × MF)) = .ok st' := h
    injection h' with h''
    obtain rfl := h''.symm
    have hk : k = n := by omega
    subst hk
    exact hInv
  | m + 1, k, A, L, U, hm, hInv, st', h => by
    have hkn : k < n := by omega
    rw [List.range'_succ k m 1, List.foldlM_cons] at h
    unfold luStep at h
    by_cases hpiv : jsAbs (A k k) < tol
    · rw [if_pos hpiv] at h
      exact absurd h (by simp [Bind.bind, Except.bind])
    · rw [if_neg hpiv] at h
      have h2 : (List.range' (k + 1) m).foldlM (luStep n) (gaussStep n (A, L, U) k) =
          .ok st' := h
      rw [gaussStep_eq n k (A, L, U) hkn] at h2
      exact luFold_ok n A0 m (k + 1) _ _ _ (by omega)
        (inv_step n k A0 A L U hkn hInv hpiv) st' h2

theorem inv_final (n : ℕ) (A0 A L U : MF) (hInv : Inv n n A0 A L U) :
    (∀ k, k < n → L k k = 1) ∧ (∀ i j, i < j → L i j = 0) ∧ (∀ i j, j < i → U i j = 0) ∧
      (∀ i j, i < n → j < n → ∑ t ∈ Finset.range n, L i t * U t j = A0 i j) := by
  obtain ⟨hL0, hL1, hU0, hU1, hUA, hLU, hA⟩ := hInv
  refine ⟨hL1, fun i j hij => hL0 i j (Or.inr hij), fun i j hji => hU0 i j (Or.inr hji), ?_⟩
  intro i j hin hjn
  rcases le_or_lt i j with hij | hji
  · have htrunc : ∑ t ∈ Finset.range n, L i t * U t j =
        ∑ t ∈ Finset.range (i + 1), L i t * U t j := by
      refine (Finset.sum_subset (Finset.range_subset.mpr (by omega)) ?_).symm
      intro t htn hti
      have h1 := Finset.mem_range.mp htn
      have h2 : ¬ t < i + 1 := fun hh => hti (Finset.mem_range.mpr hh)
      rw [hL0 i t (Or.inr (by omega)), zero_mul]
    rw [htrunc, Finset.sum_range_succ, hL1 i hin, one_mul, hUA i j hin hij hjn]
    have hAinv := hA i j
    rw [show min n (min i j) = i from by omega] at hAinv
    linarith [hAinv]
  · have htrunc : ∑ t ∈ Finset.range n, L i t * U t j =
        ∑ t ∈ Finset.range (j + 1), L i t * U t j := by
      refine (Finset.sum_subset (Finset.range_subset.mpr (by omega)) ?_).symm
      intro t htn hti
      have h1 := Finset.mem_range.mp htn
      have h2 : ¬ t < j + 1 := fun hh => hti (Finset.mem_range.mpr hh)
      rw [hU0 t j (Or.inr (by omega)), mul_zero]
    rw [htrunc, Finset.sum_range_succ, hLU j i hjn hji hin]
    have hAinv := hA i j
    rw [show min n (min i j) = j from by omega] at hAinv
    linarith [hAinv]

theorem getE_ofFun (n : ℕ) (f : MF) (i j : ℕ) (hi : i < n) (hj : j < n) :
    getE (ofFun n f) i j = f i j := by
  unfold getE ofFun
  rw [getD_map_range _ n i [] hi, getD_map_range _ n j 0 hj]

theorem getE_ofFun_ge (n : ℕ) (f : MF) (i j : ℕ) (h : n ≤ i ∨ n ≤ j) :
    getE (ofFun n f) i j = 0 := by
  unfold getE ofFun
  rcases Nat.lt_or_ge i n with hi | hi
  · rw [getD_map_range _ n i [] hi, getD_ge _ j 0 (by simp; omega)]
  · rw [getD_ge _ i [] (by simpa using hi)]
    rfl

theorem ofFun_wellFormed (n : ℕ) (f : MF) : wellFormed (ofFun n f) n n := by
  constructor
  · simp [ofFun]
  · intro r hr
    simp only [ofFun, List.mem_map] at hr
    obtain ⟨i, -, rfl⟩ := hr
    simp

/-- C1: if a square matrix passes the pivot-tolerance check (so `lu` returns a
pair rather than throwing), the returned `L` is unit-lower-triangular, `U` is
upper-triangular, and the exact matrix product `L·U` reproduces `A` entrywise. -/
theorem C1_lu_factors (A : Mat) (n : ℕ) (L U : Mat) (hA : wellFormed A n n)
    (h : lu A = .ok (L, U)) :
    wellFormed L n n ∧ wellFormed U n n ∧
      (∀ k, k < n → getE L k k = 1) ∧
      (∀ i j, i < j → getE L i j = 0) ∧
      (∀ i j, j < i → getE U i j = 0) ∧
      (∀ i j, i < n → j < n →
        ∑ t ∈ Finset.range n, getE L i t * getE U t j = getE A i j) := by
  simp only [lu] at h
  have hr : getRows A = n := hA.1
  rw [hr] at h
  cases hfold : (List.range n).foldlM (luStep n) (toFun A, fun _ _ => 0, fun _ _ => 0) with
  | error e =>
    rw [hfold] at h
    exact absurd h (by simp)
  | ok st =>
    rw [hfold] at h
    injection h with h'
    obtain ⟨rfl, rfl⟩ : ofFun n st.2.1 = L ∧ ofFun n st.2.2 = U := by
      constructor
      · exact congrArg Prod.fst h'
      · exact congrArg Prod.snd h'
    rw [List.range_eq_range'] at hfold
    have hInv := luFold_ok n (toFun A) n 0 _ _ _ (by omega) (inv_zero n (toFun A)) st hfold
    obtain ⟨hdiag, hLz, hUz, hprod⟩ := inv_final n (toFun A) st.1 st.2.1 st.2.2 hInv
    refine ⟨ofFun_wellFormed n _, ofFun_wellFormed n _, ?_, ?_, ?_, ?_⟩
    · intro k hk
      rw [getE_ofFun n _ k k hk hk]
      exact hdiag k hk
    · intro i j hij
      rcases Nat.lt_or_ge j n with hj | hj
      · rw [getE_ofFun n _ i j (by omega) hj]
        exact hLz i j hij
      · exact getE_ofFun_ge n _ i j (Or.inr hj)
    · intro i j hji
      rcases Nat.lt_or_ge i n with hi | hi
      · rw [getE_ofFun n _ i j hi (by omega)]
        exact hUz i j hji
      · exact getE_ofFun_ge n _ i j (Or.inl hi)
    · intro i j hi hj
      have hAij : getE A i j = toFun A i j := rfl
      rw [hAij, ← hprod i j hi hj]
      refine Finset.sum_congr rfl (fun t htmem => ?_)
      have ht := Finset.mem_range.mp htmem
      rw [getE_ofFun n _ i t hi ht, getE_ofFun n _ t j ht hj]

/-- C1 witness: the 4×4 example from the source documentation. -/
theorem C1_lu_witness :
    wellFormed [[3, -7, -2, 2], [-3, 5, 1, 0], [6, -4, 0, -5], [-9, 5, -5, 12]] 4 4 ∧
      lu [[3, -7, -2, 2], [-3, 5, 1, 0], [6, -4, 0, -5], [-9, 5, -5, 12]] =
        .ok ([[1, 0, 0, 0], [-1, 1, 0, 0], [2, -5, 1, 0], [-3, 8, 3, 1]],
             [[3, -7, -2, 2], [0, -2, -1, 2], [0, 0, -1, 1], [0, 0, 0, -1]]) ∧
      (∀ i j, i < 4 → j < 4 →
        ∑ t ∈ Finset.range 4,
          getE [[1, 0, 0, 0], [-1, 1, 0, 0], [2, -5, 1, 0], [-3, 8, 3, 1]] i t *
            getE [[3, -7, -2, 2], [0, -2, -1, 2], [0, 0, -1, 1], [0, 0, 0, -1]] t j =
          getE [[3, -7, -2, 2], [-3, 5, 1, 0], [6, -4, 0, -5], [-9, 5, -5, 12]] i j) :=
  ⟨by decide, by with_unfolding_all decide,
   (C1_lu_factors [[3, -7, -2, 2], [-3, 5, 1, 0], [6, -4, 0, -5], [-9, 5, -5, 12]] 4
     [[1, 0, 0, 0], [-1, 1, 0, 0], [2, -5, 1, 0], [-3, 8, 3, 1]]
     [[3, -7, -2, 2], [0, -2, -1, 2], [0, 0, -1, 1], [0, 0, 0, -1]]
     (by decide) (by with_unfolding_all decide)).2.2.2.2.2⟩

/-!  ## Error behaviour of the elimination (claims C4 and C10) -/

theorem luRun_ok (n : ℕ) (init : MF × MF × MF) :
    ∀ k : ℕ, (∀ t, t < k → ¬jsAbs (((List.range t).foldl (gaussStep n) init).1 t t) < tol) →
      (List.range k).foldlM (luStep n) init = .ok ((List.range k).foldl (gaussStep n) init)
  | 0, _ => rfl
  | k + 1, h => by
    rw [List.range_succ, List.foldlM_append, List.foldl_append,
      luRun_ok n init k (fun t ht => h t (by omega))]
    have hbind : ∀ (a : MF × MF × MF) (f : MF × MF × MF → Except String (MF × MF × MF)),
        (Except.ok a : Except String (MF × MF × MF)) >>= f = f a := fun a f => rfl
    rw [hbind, List.foldlM_cons]
    unfold luStep
    rw [if_neg (h k (by omega)), hbind, List.foldlM_nil, List.foldl_cons, List.foldl_nil]
    rfl

theorem luFold_error_msg (n : ℕ) :
    ∀ (l : List ℕ) (init : MF × MF × MF) (e : String),
      l.foldlM (luStep n) init = .error e → e = "Cannot proceed without a row exchange"
  | [], init, e, h => by
    rw [List.foldlM_nil] at h
    exact absurd h (by simp [pure, Except.pure])
  | a :: l, init, e, h => by
    rw [List.foldlM_cons] at h
    unfold luStep at h
    by_cases hp : jsAbs (init.1 a a) < tol
    · rw [if_pos hp] at h
      have h' : (Except.error "Cannot proceed without a row exchange" :
          Except String (MF × MF × MF)) = .error e := h
      injection h' with h''
      exact h''.symm
    · rw [if_neg hp] at h
      exact luFold_error_msg n l _ e h

theorem lu_error_iff (A : Mat) :
    lu A = .error "Cannot proceed without a row exchange" ↔
      ∃ k, k < getRows A ∧ jsAbs (pivotAt A k) < tol := by
  have hpiv : ∀ k, pivotAt A k =
      ((List.range k).foldl (gaussStep (getRows A))
        (toFun A, fun _ _ => 0, fun _ _ => 0)).1 k k := fun k => rfl
  constructor
  · intro h
    by_contra hcon
    push_neg at hcon
    have hok := luRun_ok (getRows A) (toFun A, fun _ _ => 0, fun _ _ => 0) (getRows A)
      (fun t ht => by rw [← hpiv t]; exact not_lt.mpr (hcon t ht))
    simp only [lu] at h
    rw [hok] at h
    exact absurd h (by simp)
  · rintro ⟨k, hk, hsmall⟩
    have hex : ∃ t, jsAbs (pivotAt A t) < tol := ⟨k, hsmall⟩
    classical
    have hk0 : jsAbs (pivotAt A (Nat.find hex)) < tol := Nat.find_spec hex
    have hmin : ∀ t, t < Nat.find hex → ¬jsAbs (pivotAt A t) < tol :=
      fun t ht => Nat.find_min hex ht
    have hk0le : Nat.find hex ≤ k := Nat.find_min' hex hsmall
    have hk0n : Nat.find hex < getRows A := by omega
    have hfirst : (List.range (Nat.find hex + 1)).foldlM (luStep (getRows A))
        (toFun A, fun _ _ => 0, fun _ _ => 0) =
        .error "Cannot proceed without a row exchange" := by
      rw [List.range_succ, List.foldlM_append,
        luRun_ok (getRows A) (toFun A, fun _ _ => 0, fun _ _ => 0) (Nat.find hex)
          (fun t ht => by rw [← hpiv t]; exact hmin t ht)]
      show luStep (getRows A)
        ((List.range (Nat.find hex)).foldl (gaussStep (getRows A))
          (toFun A, fun _ _ => 0, fun _ _ => 0)) (Nat.find hex) >>= _ = _
      unfold luStep
      rw [← hpiv (Nat.find hex), if_pos hk0]
      rfl
    have hsplit : List.range (getRows A) =
        List.range (Nat.find hex + 1) ++
          List.range' (Nat.find hex + 1) (getRows A - (Nat.find hex + 1)) := by
      have happ := List.range'_append 0 (Nat.find hex + 1)
        (getRows A - (Nat.find hex + 1)) 1
      rw [one_mul] at happ
      rw [List.range_eq_range', show getRows A =
        (getRows A - (Nat.find hex + 1)) + (Nat.find hex + 1) from by omega, ← happ,
        ← List.range_eq_range']
      simp
    have hlu : (List.range (getRows A)).foldlM (luStep (getRows A))
        (toFun A, fun _ _ => 0, fun _ _ => 0) =
        .error "Cannot proceed without a row exchange" := by
      rw [hsplit, List.foldlM_append, hfirst]
      rfl
    simp only [lu]
    rw [hlu]

theorem lu_error_only_msg (A : Mat) (e : String) (h : lu A = .error e) :
    e = "Cannot proceed without a row exchange" := by
  simp only [lu] at h
  cases hfold : (List.range (getRows A)).foldlM (luStep (getRows A))
      (toFun A, fun _ _ => 0, fun _ _ => 0) with
  | error e' =>
    rw [hfold] at h
    injection h with h'
    rw [← h']
    exact luFold_error_msg (getRows A) _ _ e' hfold
  | ok st =>
    rw [hfold] at h
    exact absurd h (by simp)

/-- C4: `lu` throws the row-exchange error exactly when some elimination step
`k` meets a working pivot `A[k][k]` of absolute value below `1e-6`, and that is
the only error `lu` ever produces (no row exchange is ever performed; a bad
pivot aborts the decomposition). -/
theorem C4_lu_error_iff (A : Mat) :
    (lu A = .error "Cannot proceed without a row exchange" ↔
      ∃ k, k < getRows A ∧ jsAbs (pivotAt A k) < tol) ∧
    ∀ e, lu A = .error e → e = "Cannot proceed without a row exchange" :=
  ⟨lu_error_iff A, fun e h => lu_error_only_msg A e h⟩

/-- C4 witness: the 2×2 all-ones matrix hits a zero pivot at step 1. -/
theorem C4_lu_error_witness :
    lu [[1, 1], [1, 1]] = .error "Cannot proceed without a row exchange" ∧
      (∃ k, k < getRows [[1, 1], [1, 1]] ∧ jsAbs (pivotAt [[1, 1], [1, 1]] k) < tol) :=
  ⟨(C4_lu_error_iff [[1, 1], [1, 1]]).1.mpr ⟨1, by decide, by with_unfolding_all decide⟩,
   ⟨1, by decide, by with_unfolding_all decide⟩⟩

/-- C10: the determinant of a 2×2 matrix is always the closed form
`a*d − b*c` (never the singular-pivot error, even for singular input), while
for square matrices of size at least 3 whose elimination meets a pivot below
the tolerance, `determinant` propagates the row-exchange error instead of
returning 0. -/
theorem C10_determinant_paths :
    (∀ a b c d : ℚ, determinant [[a, b], [c, d]] = .ok (a * d - b * c)) ∧
      ∀ (A : Mat) (n : ℕ), wellFormed A n n → 3 ≤ n →
        (∃ k, k < n ∧ jsAbs (pivotAt A k) < tol) →
        determinant A = .error "Cannot proceed without a row exchange" := by
  constructor
  · intro a b c d
    rfl
  · intro A n hA hn hex
    have hc : getCols A = n := getCols_eq A n n hA (by omega)
    have hr : getRows A = n := hA.1
    have herr : lu A = .error "Cannot proceed without a row exchange" := by
      rw [lu_error_iff A, hr]
      exact hex
    unfold determinant
    rw [hc, hr, if_pos rfl, if_neg (by omega), herr]

/-- C10 witness: the singular 3×3 all-ones matrix. -/
theorem C10_determinant_witness :
    determinant [[2, 3], [4, 5]] = .ok (2 * 5 - 3 * 4) ∧
      determinant [[1, 1, 1], [1, 1, 1], [1, 1, 1]] =
        .error "Cannot proceed without a row exchange" :=
  ⟨C10_determinant_paths.1 2 3 4 5,
   C10_determinant_paths.2 [[1, 1, 1], [1, 1, 1], [1, 1, 1]] 3 (by decide) (by decide)
     ⟨1, by decide, by with_unfolding_all decide⟩⟩

/-!  ## Solve: the loops compute the substitution recurrences (claim C3) -/

theorem getD_set_self {α} (l : List α) (i : ℕ) (v d : α) (h : i < l.length) :
    (l.set i v).getD i d = v := by
  rw [List.getD_eq_getElem?_getD, List.getElem?_set_self (by simpa using h)]
  rfl

theorem getD_set_ne {α} (l : List α) (i j : ℕ) (v d : α) (h : i ≠ j) :
    (l.set i v).getD j d = l.getD j d := by
  rw [List.getD_eq_getElem?_getD, List.getElem?_set_ne h, ← List.getD_eq_getElem?_getD]

theorem foldl_range_add (f : ℕ → ℚ) :
    ∀ (k : ℕ) (c : ℚ), (List.range k).foldl (fun s j => s + f j) c =
      c + ∑ j ∈ Finset.range k, f j
  | 0, c => by simp
  | k + 1, c => by
    rw [List.range_succ, List.foldl_append, List.foldl_cons, List.foldl_nil,
      foldl_range_add f k c, Finset.sum_range_succ]
    ring

theorem foldl_range'_add (f : ℕ → ℚ) :
    ∀ (len s : ℕ) (c : ℚ), (List.range' s len).foldl (fun t j => t + f j) c =
      c + ∑ j ∈ Finset.Ico s (s + len), f j
  | 0, s, c => by simp
  | len + 1, s, c => by
    rw [List.range'_succ s len 1, List.foldl_cons, foldl_range'_add f len (s + 1) (c + f s)]
    have hpeel : ∑ j ∈ Finset.Ico s (s + (len + 1)), f j =
        f s + ∑ j ∈ Finset.Ico (s + 1) (s + (len + 1)), f j :=
      Finset.sum_eq_sum_Ico_succ_bot (by omega) f
    rw [hpeel, show s + (len + 1) = s + 1 + len from by omega]
    ring

theorem cSpec_eq (L : Mat) (b : Vec) (k : ℕ) :
    cSpec L b k = b.getD k 0 - ∑ j ∈ Finset.range k, getE L k j * cSpec L b j := by
  rw [cSpec]
  rw [Finset.sum_attach (Finset.range k) (fun j => getE L k j * cSpec L b j)]

theorem xSpec_eq (U : Mat) (c : ℕ → ℚ) (n a : ℕ) :
    xSpec U c n a =
      (c a - ∑ j ∈ Finset.Ico (a + 1) n, getE U a j * xSpec U c n j) / getE U a a := by
  rw [xSpec]
  rw [Finset.sum_attach (Finset.Ico (a + 1) n) (fun j => getE U a j * xSpec U c n j)]

theorem xSpec_congr (U : Mat) (c c' : ℕ → ℚ) (n : ℕ) (h : ∀ t, t < n → c t = c' t) :
    ∀ a, a < n → xSpec U c n a = xSpec U c' n a := by
  have key : ∀ m a, a < n → n - a ≤ m → xSpec U c n a = xSpec U c' n a := by
    intro m
    induction m with
    | zero => intro a ha hm; omega
    | succ m ih =>
        intro a ha hm
        rw [xSpec_eq, xSpec_eq, h a ha]
        refine congrArg₂ _ (congrArg₂ _ rfl (Finset.sum_congr rfl fun j hj => ?_)) rfl
        have hj' := Finset.mem_Ico.mp hj
        rw [ih j hj'.2 (by omega)]
  exact fun a ha => key (n - a) a ha (le_refl _)

theorem solveC_spec (L : Mat) (b : Vec) :
    ∀ n, solveC n L b = (List.range n).map (cSpec L b)
  | 0 => rfl
  | n + 1 => by
    have ih := solveC_spec L b n
    unfold solveC at ih ⊢
    rw [List.range_succ, List.foldl_append, ih, List.foldl_cons, List.foldl_nil,
      List.map_append]
    congr 1
    rw [foldl_range_add (fun j => getE L n j *
      ((List.range n).map (cSpec L b)).getD j 0) n 0, zero_add]
    have hsum : ∑ j ∈ Finset.range n,
        getE L n j * ((List.range n).map (cSpec L b)).getD j 0 =
        ∑ j ∈ Finset.range n, getE L n j * cSpec L b j := by
      refine Finset.sum_congr rfl fun j hj => ?_
      rw [getD_map_range _ n j 0 (Finset.mem_range.mp hj)]
    rw [hsum, ← cSpec_eq L b n]
    simp

theorem solveX_length (n : ℕ) (U : Mat) (c : Vec) :
    ∀ (m : ℕ) (x : Vec), (solveX n U c m x).length = x.length
  | 0, x => rfl
  | m + 1, x => by
    unfold solveX
    rw [solveX_length n U c m _]
    simp

theorem solveX_spec (U : Mat) (c : Vec) (n : ℕ) :
    ∀ (m : ℕ) (x : Vec), m ≤ n → x.length = n →
      (∀ j, m ≤ j → j < n → x.getD j 0 = xSpec U (fun t => c.getD t 0) n j) →
      ∀ j, j < n → (solveX n U c m x).getD j 0 = xSpec U (fun t => c.getD t 0) n j
  | 0, x, hm, hx, hinv, j, hj => hinv j (Nat.zero_le j) hj
  | m + 1, x, hm, hx, hinv, j, hj => by
    unfold solveX
    simp only
    set v := (c.getD m 0 - (List.range' (m + 1) (n - (m + 1))).foldl
      (fun t b' => t + getE U m b' * x.getD b' 0) 0) / getE U m m with hv
    have hvx : v = xSpec U (fun t => c.getD t 0) n m := by
      have hsumc : ∑ b' ∈ Finset.Ico (m + 1) n, getE U m b' * x.getD b' 0 =
          ∑ b' ∈ Finset.Ico (m + 1) n, getE U m b' * xSpec U (fun t => c.getD t 0) n b' := by
        refine Finset.sum_congr rfl fun b' hb' => ?_
        have hb'' := Finset.mem_Ico.mp hb'
        rw [hinv b' (by omega) hb''.2]
      rw [hv, foldl_range'_add (fun b' => getE U m b' * x.getD b' 0) (n - (m + 1)) (m + 1) 0,
        zero_add, show m + 1 + (n - (m + 1)) = n from by omega, hsumc,
        xSpec_eq U (fun t => c.getD t 0) n m]
    refine solveX_spec U c n m (x.set m v) (by omega) (by simpa using hx) ?_ j hj
    intro j' hj1 hj2
    rcases eq_or_ne j' m with rfl | hne
    · rw [getD_set_self x j' v 0 (by omega), hvx]
    · rw [getD_set_ne x m j' v 0 (Ne.symm hne)]
      exact hinv j' (by omega) hj2

/-- C3: `solve` returns the plain numeric array produced by forward
substitution (`c[k] = b[k] − Σ_{j<k} L[k][j]·c[j]`) followed by back
substitution (`x[a] = (c[a] − Σ_{j>a} U[a][j]·x[j]) / U[a][a]`) on the LU
factors; in particular `solve([[5,1],[3,-4]], [7,18]) = [2,-3]`. -/
theorem C3_solve_substitution :
    (∀ (A : Mat) (n : ℕ) (b : Vec) (L U : Mat), wellFormed A n n →
      lu A = .ok (L, U) → b.length = n →
      solve A b = .ok ((List.range n).map (xSpec U (cSpec L b) n))) ∧
    solve [[5, 1], [3, -4]] [7, 18] = .ok [2, -3] := by
  constructor
  · intro A n b L U hA h hb
    have hr : getRows A = n := hA.1
    simp only [solve, h, hr]
    have hcList : solveC n L b = (List.range n).map (cSpec L b) := solveC_spec L b n
    have hcagree : ∀ t, t < n → (solveC n L b).getD t 0 = cSpec L b t := by
      intro t ht
      rw [hcList, getD_map_range _ n t 0 ht]
    have hfinal := solveX_spec U (solveC n L b) n n (List.replicate n 0) (le_refl n)
      (by simp) (fun j hj1 hj2 => absurd hj1 (by omega))
    have hlen : (solveX n U (solveC n L b) n (List.replicate n 0)).length = n := by
      rw [solveX_length]
      simp
    congr 1
    apply List.ext_getElem
    · simp [hlen]
    · intro i h1 h2
      have hi : i < n := by simpa [hlen] using h1
      have hstep := hfinal i hi
      rw [getD_lt _ _ _ h1] at hstep
      simp only [List.get_eq_getElem] at hstep
      rw [hstep, xSpec_congr U (fun t => (solveC n L b).getD t 0) (cSpec L b) n hcagree i hi]
      simp
  · with_unfolding_all decide

/-- C3 witness: the spec's concrete system 5x + y = 7, 3x − 4y = 18. -/
theorem C3_solve_witness :
    wellFormed [[5, 1], [3, -4]] 2 2 ∧
      lu [[5, 1], [3, -4]] =
        .ok ([[1, 0], [3 / 5, 1]], [[5, 1], [0, -23 / 5]]) ∧
      solve [[5, 1], [3, -4]] [7, 18] =
        .ok ((List.range 2).map
          (xSpec [[5, 1], [0, -23 / 5]] (cSpec [[1, 0], [3 / 5, 1]] [7, 18]) 2)) :=
  ⟨by decide, by with_unfolding_all decide,
   C3_solve_substitution.1 [[5, 1], [3, -4]] 2 [7, 18] [[1, 0], [3 / 5, 1]]
     [[5, 1], [0, -23 / 5]] (by decide) (by with_unfolding_all decide) (by decide)⟩

/-!  ## RREF shape preservation and rank (claim C5) -/

theorem wf_set_row (M : Mat) (m n i : ℕ) (row : List ℚ) (h : wellFormed M m n)
    (hrow : row.length = n) : wellFormed (M.set i row) m n := by
  constructor
  · simp [h.1]
  · intro r hr
    rcases List.mem_or_eq_of_mem_set hr with h1 | rfl
    · exact h.2 r h1
    · exact hrow

theorem wf_swapRows (M : Mat) (m n i r : ℕ) (h : wellFormed M m n) (hi : i < m)
    (hr : r < m) : wellFormed (swapRows M i r) m n := by
  unfold swapRows
  have hrowr : (M.getD r []).length = n := row_length M m n h r hr
  have hrowi : (M.getD i []).length = n := row_length M m n h i hi
  exact wf_set_row _ m n r _ (wf_set_row M m n i _ h hrowr) hrowi

theorem wf_scaleRow (M : Mat) (m n r cols : ℕ) (v : ℚ) (h : wellFormed M m n)
    (hr : r < m) : wellFormed (scaleRow M r v cols) m n := by
  unfold scaleRow
  refine wf_set_row M m n r _ h ?_
  rw [List.length_mapIdx]
  exact row_length M m n h r hr

theorem wf_elimRow (M : Mat) (m n r lead cols i : ℕ) (h : wellFormed M m n)
    (hi : i < m) : wellFormed (elimRow M r lead cols i) m n := by
  unfold elimRow
  refine wf_set_row M m n i _ h ?_
  rw [List.length_mapIdx]
  exact row_length M m n h i hi

theorem wf_foldl_elim (r lead cols m n : ℕ) :
    ∀ (l : List ℕ) (Mc : Mat), (∀ x ∈ l, x < m) → wellFormed Mc m n →
      wellFormed (l.foldl (fun Mc i => if i = r then Mc else elimRow Mc r lead cols i) Mc) m n
  | [], _, _, h => h
  | a :: l, Mc, hmem, h => by
    rw [List.foldl_cons]
    refine wf_foldl_elim r lead cols m n l _
      (fun x hx => hmem x (List.mem_cons_of_mem a hx)) ?_
    by_cases ha : a = r
    · rw [if_pos ha]
      exact h
    · rw [if_neg ha]
      exact wf_elimRow Mc m n r lead cols a h (hmem a (List.mem_cons_self a l))

theorem wf_elimOthers (M : Mat) (m n r lead rows cols : ℕ) (h : wellFormed M m n)
    (hrows : rows ≤ m) : wellFormed (elimOthers M r lead rows cols) m n := by
  unfold elimOthers
  exact wf_foldl_elim r lead cols m n (List.range rows) M
    (fun x hx => by have := List.mem_range.mp hx; omega) h

theorem findNZ_bounds (M : Mat) (lead : ℕ) :
    ∀ (fuel i0 i : ℕ), findNZ M lead i0 fuel = some i → i0 ≤ i ∧ i < i0 + fuel
  | 0, i0, i, h => by simp [findNZ] at h
  | fuel + 1, i0, i, h => by
    unfold findNZ at h
    by_cases hc : getE M i0 lead ≠ 0
    · rw [if_pos hc] at h
      injection h with h'
      omega
    · rw [if_neg hc] at h
      have := findNZ_bounds M lead fuel (i0 + 1) i h
      omega

theorem searchLead_bounds (M : Mat) (rows r : ℕ) :
    ∀ (fuel lead i lead' : ℕ), searchLead M rows r lead fuel = some (i, lead') →
      r ≤ i ∧ i < r + (rows - r)
  | 0, lead, i, lead', h => by simp [searchLead] at h
  | fuel + 1, lead, i, lead', h => by
    unfold searchLead at h
    cases hf : findNZ M lead r (rows - r) with
    | some i2 =>
        rw [hf] at h
        injection h with h'
        have hb := findNZ_bounds M lead (rows - r) r i2 hf
        have : i2 = i := congrArg Prod.fst h'
        omega
    | none =>
        rw [hf] at h
        exact searchLead_bounds M rows r fuel (lead + 1) i lead' h

theorem wf_rrefGo (rows cols : ℕ) :
    ∀ (fuel : ℕ) (M : Mat) (r lead : ℕ), wellFormed M rows cols → r + fuel ≤ rows →
      wellFormed (rrefGo rows cols M r lead fuel) rows cols
  | 0, M, r, lead, h, hb => h
  | fuel + 1, M, r, lead, h, hb => by
    unfold rrefGo
    by_cases hc : cols ≤ lead
    · rw [if_pos hc]
      exact h
    · rw [if_neg hc]
      cases hs : searchLead M rows r lead (cols - lead) with
      | none => exact h
      | some p =>
          obtain ⟨i, lead'⟩ := p
          have hbound := searchLead_bounds M rows r (cols - lead) lead i lead' hs
          have hi : i < rows := by omega
          have hr : r < rows := by omega
          simp only
          have h1 := wf_swapRows M rows cols i r h hi hr
          have h2 := wf_scaleRow _ rows cols r cols (getE (swapRows M i r) r lead') h1 hr
          have h3 := wf_elimOthers _ rows cols r lead' rows cols h2 (le_refl rows)
          exact wf_rrefGo rows cols fuel _ (r + 1) (lead' + 1) h3 (by omega)

theorem rref_wf (A : Mat) (m n : ℕ) (h : wellFormed A m n) :
    wellFormed (rref A) m n := by
  unfold rref
  rcases Nat.eq_zero_or_pos m with rfl | hm
  · have hA : A = [] := List.length_eq_zero.mp h.1
    subst hA
    exact h
  · have hr : getRows A = m := h.1
    have hc : getCols A = n := getCols_eq A m n h hm
    rw [hr, hc]
    exact wf_rrefGo m n m A 0 0 h (by omega)

theorem rank_foldlM_ok (R : Mat) :
    ∀ (k : ℕ) (acc : ℚ), (∀ i, i < k → i < getRows R) →
      (List.range k).foldlM
        (fun acc i => if i < getRows R then some (acc + getE R i i) else none) acc =
      some (acc + ∑ i ∈ Finset.range k, getE R i i)
  | 0, acc, _ => by simp
  | k + 1, acc, h => by
    rw [List.range_succ, List.foldlM_append,
      rank_foldlM_ok R k acc (fun i hi => h i (by omega))]
    show ([k].foldlM (fun acc i => if i < getRows R then some (acc + getE R i i) else none)
      (acc + ∑ i ∈ Finset.range k, getE R i i)) = _
    rw [List.foldlM_cons, if_pos (h k (by omega))]
    show some (acc + ∑ i ∈ Finset.range k, getE R i i + getE R k k) = _
    rw [Finset.sum_range_succ, add_assoc]

theorem rank_foldlM_none (R : Mat) :
    ∀ (l : List ℕ) (acc : ℚ), (∃ i ∈ l, ¬ i < getRows R) →
      l.foldlM (fun acc i => if i < getRows R then some (acc + getE R i i) else none) acc =
        none
  | [], acc, h => absurd h (by simp)
  | a :: l, acc, h => by
    rw [List.foldlM_cons]
    by_cases ha : a < getRows R
    · rw [if_pos ha]
      have hl : ∃ i ∈ l, ¬ i < getRows R := by
        obtain ⟨i, hi, hni⟩ := h
        rcases List.mem_cons.mp hi with rfl | hmem
        · exact absurd ha hni
        · exact ⟨i, hmem, hni⟩
      show l.foldlM _ (acc + getE R a a) = none
      exact rank_foldlM_none R l _ hl
    · rw [if_neg ha]
      rfl

/-- C5, counterexample: for the wide matrix `[[1, 0]]` the rank loop reads
`rref.__value[1]`, which does not exist, so `rank` fails (embedded as `none`)
instead of returning the diagonal sum `1` the claim promises. -/
theorem C5_rank_counterexample :
    rank [[1, 0]] = none ∧
      ∑ i ∈ Finset.range (min 1 2), getE (rref [[1, 0]]) i i = 1 := by
  constructor
  · with_unfolding_all decide
  · with_unfolding_all decide

/-- C5 (amended): for every well-formed matrix with at least as many rows as
columns, `rank` returns the sum of the diagonal entries `rref[i][i]`,
`i < cols`, of the RREF result; when the matrix has more columns than rows
(and at least one row) the loop walks past the last row of the RREF result
and `rank` fails instead of returning a number. -/
theorem C5_rank_diagonal_sum (A : Mat) (m n : ℕ) (h : wellFormed A m n) :
    (n ≤ m → rank A = some (∑ i ∈ Finset.range n, getE (rref A) i i)) ∧
      (1 ≤ m → m < n → rank A = none) := by
  have hwfR := rref_wf A m n h
  constructor
  · intro hnm
    unfold rank
    rcases Nat.eq_zero_or_pos n with rfl | hn
    · have hc : getCols (rref A) = 0 := by
        unfold getCols
        rcases hR : rref A with - | ⟨r, rs⟩
        · rfl
        · have := hwfR.2 r (by rw [hR]; exact List.mem_cons_self r rs)
          simpa [hR] using this
      rw [hc]
      simp
    · have hc : getCols (rref A) = n := getCols_eq _ m n hwfR (by omega)
      rw [hc, rank_foldlM_ok (rref A) n 0
        (fun i hi => by have hRr : getRows (rref A) = m := hwfR.1; omega), zero_add]
  · intro hm hmn
    unfold rank
    have hc : getCols (rref A) = n := getCols_eq _ m n hwfR hm
    rw [hc]
    exact rank_foldlM_none (rref A) (List.range n) 0
      ⟨m, List.mem_range.mpr hmn, by have hRr : getRows (rref A) = m := hwfR.1; omega⟩

/-- C5 witness: a square matrix where rank is the diagonal sum of the RREF. -/
theorem C5_rank_witness :
    wellFormed [[1, 1], [2, 4]] 2 2 ∧
      rank [[1, 1], [2, 4]] = some (∑ i ∈ Finset.range 2, getE (rref [[1, 1], [2, 4]]) i i) ∧
      rank [[1, 1], [2, 4]] = some 2 :=
  ⟨by decide,
   (C5_rank_diagonal_sum [[1, 1], [2, 4]] 2 2 (by decide)).1 (by decide),
   by with_unfolding_all decide⟩

/-!  ## Frame properties of the heap-level algorithms (claim C7) -/

theorem getD_mem {α} (l : List α) (i : ℕ) (d : α) (h : i < l.length) : l.getD i d ∈ l := by
  rw [getD_lt _ _ _ h]
  exact l.get_mem _ _

theorem hset_heap_frame (σ : St) (addr j : ℕ) (v : ℚ) (a : ℕ) (h : a ≠ addr) :
    (hset σ addr j v).heap a = σ.heap a := if_neg h

theorem hset_next (σ : St) (addr j : ℕ) (v : ℚ) : (hset σ addr j v).next = σ.next := rfl

theorem alloc_heap_frame (σ : St) (rows : Mat) (a : ℕ) (h : a < σ.next) :
    ((alloc σ rows).2).heap a = σ.heap a := if_neg (by omega)

theorem alloc_next (σ : St) (rows : Mat) :
    ((alloc σ rows).2).next = σ.next + rows.length := rfl

theorem alloc_addrs_ge (σ : St) (rows : Mat) : ∀ x ∈ (alloc σ rows).1, σ.next ≤ x := by
  intro x hx
  simp only [alloc, List.mem_range'] at hx
  obtain ⟨i, -, rfl⟩ := hx
  omega

theorem alloc_addrs_len (σ : St) (rows : Mat) : (alloc σ rows).1.length = rows.length := by
  simp [alloc]

theorem foldl_heap_frame {β : Type} (proj : β → St) (f : β → ℕ → β) (N : ℕ) :
    ∀ (l : List ℕ),
      (∀ b, ∀ x ∈ l, ∀ a, a < N → (proj (f b x)).heap a = (proj b).heap a) →
      ∀ (b : β) (a : ℕ), a < N → (proj (l.foldl f b)).heap a = (proj b).heap a
  | [], _, b, a, ha => rfl
  | x :: l, hf, b, a, ha => by
    rw [List.foldl_cons,
      foldl_heap_frame proj f N l
        (fun b' x' hx' => hf b' x' (List.mem_cons_of_mem x hx')) (f b x) a ha]
    exact hf b x (List.mem_cons_self x l) a ha

theorem foldl_next_eq {β : Type} (proj : β → St) (f : β → ℕ → β) :
    ∀ (l : List ℕ), (∀ b, ∀ x ∈ l, (proj (f b x)).next = (proj b).next) →
      ∀ b, (proj (l.foldl f b)).next = (proj b).next
  | [], _, _ => rfl
  | x :: l, hf, b => by
    rw [List.foldl_cons,
      foldl_next_eq proj f l (fun b' x' hx' => hf b' x' (List.mem_cons_of_mem x hx')) (f b x)]
    exact hf b x (List.mem_cons_self x l)

theorem luHJ_frame (n k i : ℕ) (aA aL : List ℕ) (σ : St) (N : ℕ)
    (hA : ∀ x ∈ aA, N ≤ x) (hi : i < aA.length) :
    ∀ a, a < N → (luHJ n k i aA aL σ).heap a = σ.heap a := by
  intro a ha
  refine foldl_heap_frame id _ N _ ?_ σ a ha
  intro b x _ a' ha'
  exact hset_heap_frame b (aA.getD i 0) x _ a'
    (by have := hA _ (getD_mem aA i 0 hi); omega)

theorem luHI_frame (n k : ℕ) (aA aL : List ℕ) (σ : St) (N : ℕ)
    (hA : ∀ x ∈ aA, N ≤ x) (hL : ∀ x ∈ aL, N ≤ x)
    (hALen : aA.length = n) (hLLen : aL.length = n) :
    ∀ a, a < N → (luHI n k aA aL σ).heap a = σ.heap a := by
  intro a ha
  refine foldl_heap_frame id _ N _ ?_ σ a ha
  intro b i hi a' ha'
  have hin : i < n := by
    simp only [List.mem_range'] at hi
    omega
  show (luHJ n k i aA aL (hset b (aL.getD i 0) k _)).heap a' = b.heap a'
  rw [luHJ_frame n k i aA aL _ N hA (by omega) a' ha']
  exact hset_heap_frame b (aL.getD i 0) k _ a'
    (by have := hL _ (getD_mem aL i 0 (by omega)); omega)

theorem luHU_frame (n k : ℕ) (aA aU : List ℕ) (σ : St) (N : ℕ)
    (hU : ∀ x ∈ aU, N ≤ x) (hk : k < aU.length) :
    ∀ a, a < N → (luHU n k aA aU σ).heap a = σ.heap a := by
  intro a ha
  refine foldl_heap_frame id _ N _ ?_ σ a ha
  intro b x _ a' ha'
  exact hset_heap_frame b (aU.getD k 0) x _ a'
    (by have := hU _ (getD_mem aU k 0 hk); omega)

theorem cloneH_heap_frame (σ : St) (addrs : List ℕ) (a : ℕ) (h : a < σ.next) :
    ((cloneH σ addrs).2).heap a = σ.heap a := alloc_heap_frame σ _ a h

theorem zerosH_heap_frame (σ : St) (addrs : List ℕ) (a : ℕ) (h : a < σ.next) :
    ((zerosH σ addrs).2).heap a = σ.heap a := alloc_heap_frame σ _ a h

theorem luHStep_frame (n : ℕ) (aA aL aU : List ℕ) (N : ℕ)
    (hA : ∀ x ∈ aA, N ≤ x) (hL : ∀ x ∈ aL, N ≤ x) (hU : ∀ x ∈ aU, N ≤ x)
    (hALen : aA.length = n) (hLLen : aL.length = n) (hULen : aU.length = n)
    (b : Except String Unit × St) (k : ℕ) (hk : k < n) :
    ∀ a, a < N → ((luHStep n aA aL aU b k).2).heap a = (b.2).heap a := by
  intro a ha
  rcases b with ⟨e, σb⟩
  cases e with
  | error e => rfl
  | ok u =>
      show (Prod.snd (if jsAbs (hget σb (aA.getD k 0) k) < tol then
          ((Except.error "Cannot proceed without a row exchange", σb) :
            Except String Unit × St)
        else
          (Except.ok (), luHU n k aA aU
            (luHI n k aA aL (hset σb (aL.getD k 0) k 1))))).heap a = σb.heap a
      by_cases hsmall : jsAbs (hget σb (aA.getD k 0) k) < tol
      · rw [if_pos hsmall]
      · rw [if_neg hsmall]
        show (luHU n k aA aU (luHI n k aA aL (hset σb (aL.getD k 0) k 1))).heap a =
          σb.heap a
        rw [luHU_frame n k aA aU _ N hU (by omega) a ha]
        rw [luHI_frame n k aA aL _ N hA hL hALen hLLen a ha]
        exact hset_heap_frame σb _ k 1 a
          (by have := hL _ (getD_mem aL k 0 (by omega)); omega)

theorem luH_frame (σ : St) (this : List ℕ) :
    ∀ a, a < σ.next → ((luH σ this).2).heap a = σ.heap a := by
  intro a ha
  have hA1 : ∀ x ∈ (cloneH σ this).1, σ.next ≤ x := alloc_addrs_ge σ _
  have hA1len : (cloneH σ this).1.length = this.length := by
    rw [cloneH, alloc_addrs_len]
    simp [readMat]
  have hn1 : ((cloneH σ this).2).next = σ.next + this.length := by
    rw [cloneH, alloc_next]
    simp [readMat]
  have hL1 : ∀ x ∈ (zerosH (cloneH σ this).2 this).1, σ.next ≤ x := by
    intro x hx
    have := alloc_addrs_ge (cloneH σ this).2 _ x hx
    omega
  have hL1len : (zerosH (cloneH σ this).2 this).1.length = this.length := by
    rw [zerosH, alloc_addrs_len]
    simp [readMat]
  have hn2 : ((zerosH (cloneH σ this).2 this).2).next =
      ((cloneH σ this).2).next + this.length := by
    rw [zerosH, alloc_next]
    simp [readMat]
  have hU1 : ∀ x ∈ (zerosH (zerosH (cloneH σ this).2 this).2 this).1, σ.next ≤ x := by
    intro x hx
    have := alloc_addrs_ge (zerosH (cloneH σ this).2 this).2 _ x hx
    omega
  have hU1len : (zerosH (zerosH (cloneH σ this).2 this).2 this).1.length = this.length := by
    rw [zerosH, alloc_addrs_len]
    simp [readMat]
  have hsnd : (luH σ this).2 =
      ((List.range this.length).foldl
        (luHStep this.length (cloneH σ this).1 (zerosH (cloneH σ this).2 this).1
          (zerosH (zerosH (cloneH σ this).2 this).2 this).1)
        (.ok (), (zerosH (zerosH (cloneH σ this).2 this).2 this).2)).2 := rfl
  rw [hsnd]
  rw [foldl_heap_frame Prod.snd _ σ.next (List.range this.length)
    (fun b x hx a' ha' => luHStep_frame this.length _ _ _ σ.next hA1 hL1 hU1
      hA1len hL1len hU1len b x (List.mem_range.mp hx) a' ha')
    (.ok (), (zerosH (zerosH (cloneH σ this).2 this).2 this).2) a ha]
  show ((zerosH (zerosH (cloneH σ this).2 this).2 this).2).heap a = σ.heap a
  rw [zerosH_heap_frame _ this a (by omega)]
  rw [zerosH_heap_frame _ this a (by omega)]
  rw [cloneH_heap_frame σ this a ha]

theorem scaleRowH_frame (σ : St) (ad : ℕ) (v : ℚ) (cols : ℕ) (N : ℕ) (had : N ≤ ad) :
    ∀ b, b < N → (scaleRowH σ ad v cols).heap b = σ.heap b := by
  intro b hb
  refine foldl_heap_frame id _ N _ ?_ σ b hb
  intro σc j _ a' ha'
  exact hset_heap_frame σc ad j _ a' (by omega)

theorem scaleRowH_next (σ : St) (ad : ℕ) (v : ℚ) (cols : ℕ) :
    (scaleRowH σ ad v cols).next = σ.next := by
  refine foldl_next_eq id _ _ ?_ σ
  intro σc j _
  rfl

theorem elimRowH_frame (σ : St) (ai ar lead cols : ℕ) (N : ℕ) (hai : N ≤ ai) :
    ∀ b, b < N → (elimRowH σ ai ar lead cols).heap b = σ.heap b := by
  intro b hb
  refine foldl_heap_frame id _ N _ ?_ σ b hb
  intro σc j _ a' ha'
  exact hset_heap_frame σc ai j _ a' (by omega)

theorem elimRowH_next (σ : St) (ai ar lead cols : ℕ) :
    (elimRowH σ ai ar lead cols).next = σ.next := by
  refine foldl_next_eq id _ _ ?_ σ
  intro σc j _
  rfl

theorem elimOthersH_frame (σ : St) (addrs : List ℕ) (r lead rows cols : ℕ) (N : ℕ)
    (h : ∀ x ∈ addrs, N ≤ x) (hlen : rows ≤ addrs.length) :
    ∀ b, b < N → (elimOthersH σ addrs r lead rows cols).heap b = σ.heap b := by
  intro b hb
  refine foldl_heap_frame id _ N _ ?_ σ b hb
  intro σc i hi a' ha'
  have hir : i < rows := List.mem_range.mp hi
  by_cases he : i = r
  · rw [if_pos he]
  · rw [if_neg he]
    exact elimRowH_frame σc (addrs.getD i 0) (addrs.getD r 0) lead cols N
      (h _ (getD_mem addrs i 0 (by omega))) a' ha'

theorem elimOthersH_next (σ : St) (addrs : List ℕ) (r lead rows cols : ℕ) :
    (elimOthersH σ addrs r lead rows cols).next = σ.next := by
  refine foldl_next_eq id _ _ ?_ σ
  intro σc i _
  by_cases he : i = r
  · rw [if_pos he]
  · rw [if_neg he]
    exact elimRowH_next σc _ _ lead cols

theorem findNZH_bounds (σ : St) (addrs : List ℕ) (lead : ℕ) :
    ∀ (fuel i0 i : ℕ), findNZH σ addrs lead i0 fuel = some i → i0 ≤ i ∧ i < i0 + fuel
  | 0, i0, i, h => by simp [findNZH] at h
  | fuel + 1, i0, i, h => by
    unfold findNZH at h
    by_cases hc : hget σ (addrs.getD i0 0) lead ≠ 0
    · rw [if_pos hc] at h
      injection h with h'
      omega
    · rw [if_neg hc] at h
      have := findNZH_bounds σ addrs lead fuel (i0 + 1) i h
      omega

theorem searchLeadH_bounds (σ : St) (addrs : List ℕ) (rows r : ℕ) :
    ∀ (fuel lead i lead' : ℕ), searchLeadH σ addrs rows r lead fuel = some (i, lead') →
      r ≤ i ∧ i < r + (rows - r)
  | 0, lead, i, lead', h => by simp [searchLeadH] at h
  | fuel + 1, lead, i, lead', h => by
    unfold searchLeadH at h
    cases hf : findNZH σ addrs lead r (rows - r) with
    | some i2 =>
        rw [hf] at h
        injection h with h'
        have hb := findNZH_bounds σ addrs lead (rows - r) r i2 hf
        have : i2 = i := congrArg Prod.fst h'
        omega
    | none =>
        rw [hf] at h
        exact searchLeadH_bounds σ addrs rows r fuel (lead + 1) i lead' h

theorem swapH_length (addrs : List ℕ) (i r : ℕ) :
    (swapH addrs i r).length = addrs.length := by
  simp [swapH]

theorem swapH_mem_ge (addrs : List ℕ) (i r : ℕ) (N : ℕ)
    (h : ∀ x ∈ addrs, N ≤ x) (hi : i < addrs.length) (hr : r < addrs.length) :
    ∀ x ∈ swapH addrs i r, N ≤ x := by
  intro x hx
  rcases List.mem_or_eq_of_mem_set hx with hx1 | rfl
  · rcases List.mem_or_eq_of_mem_set hx1 with hx2 | rfl
    · exact h x hx2
    · exact h _ (getD_mem addrs r 0 hr)
  · exact h _ (getD_mem addrs i 0 hi)

theorem rrefGoH_frame (rows cols N : ℕ) :
    ∀ (fuel : ℕ) (st : List ℕ × St) (r lead : ℕ),
      (∀ x ∈ st.1, N ≤ x) → st.1.length = rows →
      ∀ b, b < N → ((rrefGoH rows cols st r lead fuel).2).heap b = (st.2).heap b
  | 0, st, r, lead, hmem, hlen, b, hb => rfl
  | fuel + 1, st, r, lead, hmem, hlen, b, hb => by
    unfold rrefGoH
    by_cases hc : cols ≤ lead
    · rw [if_pos hc]
    · rw [if_neg hc]
      cases hs : searchLeadH st.2 st.1 rows r lead (cols - lead) with
      | none => rfl
      | some p =>
          obtain ⟨i, lead'⟩ := p
          have hbound := searchLeadH_bounds st.2 st.1 rows r (cols - lead) lead i lead' hs
          have hi : i < rows := by omega
          have hr : r < rows := by omega
          simp only
          have hmem' : ∀ x ∈ swapH st.1 i r, N ≤ x :=
            swapH_mem_ge st.1 i r N hmem (by omega) (by omega)
          have hlen' : (swapH st.1 i r).length = rows := by
            rw [swapH_length]
            exact hlen
          rw [rrefGoH_frame rows cols N fuel _ (r + 1) (lead' + 1) hmem' hlen' b hb]
          show (elimOthersH (scaleRowH st.2 ((swapH st.1 i r).getD r 0)
              (hget st.2 ((swapH st.1 i r).getD r 0) lead') cols)
              (swapH st.1 i r) r lead' rows cols).heap b = (st.2).heap b
          rw [elimOthersH_frame _ (swapH st.1 i r) r lead' rows cols N hmem'
            (by omega) b hb]
          exact scaleRowH_frame st.2 _ _ cols N
            (hmem' _ (getD_mem _ r 0 (by omega))) b hb

theorem rrefGoH_next (rows cols : ℕ) :
    ∀ (fuel : ℕ) (st : List ℕ × St) (r lead : ℕ),
      ((rrefGoH rows cols st r lead fuel).2).next = (st.2).next
  | 0, st, r, lead => rfl
  | fuel + 1, st, r, lead => by
    unfold rrefGoH
    by_cases hc : cols ≤ lead
    · rw [if_pos hc]
    · rw [if_neg hc]
      cases hs : searchLeadH st.2 st.1 rows r lead (cols - lead) with
      | none => rfl
      | some p =>
          obtain ⟨i, lead'⟩ := p
          simp only
          rw [rrefGoH_next rows cols fuel _ (r + 1) (lead' + 1)]
          show (elimOthersH (scaleRowH st.2 ((swapH st.1 i r).getD r 0)
              (hget st.2 ((swapH st.1 i r).getD r 0) lead') cols)
              (swapH st.1 i r) r lead' rows cols).next = (st.2).next
          rw [elimOthersH_next, scaleRowH_next]

theorem rrefH_frame (σ : St) (this : List ℕ) :
    ∀ b, b < σ.next → ((rrefH σ this).2).heap b = σ.heap b := by
  intro b hb
  have hmem : ∀ x ∈ (cloneH σ this).1, σ.next ≤ x := alloc_addrs_ge σ _
  have hlen : (cloneH σ this).1.length = this.length := by
    rw [cloneH, alloc_addrs_len]
    simp [readMat]
  show ((rrefGoH this.length ((readMat σ this).headD []).length (cloneH σ this) 0 0
      this.length).2).heap b = σ.heap b
  rw [rrefGoH_frame this.length _ σ.next this.length (cloneH σ this) 0 0 hmem hlen b hb]
  exact cloneH_heap_frame σ this b hb

theorem alloc_next_mono (σ : St) (rows : Mat) : σ.next ≤ ((alloc σ rows).2).next := by
  rw [alloc_next]
  omega

theorem rrefH_next_mono (σ : St) (this : List ℕ) : σ.next ≤ ((rrefH σ this).2).next := by
  show σ.next ≤ ((rrefGoH this.length ((readMat σ this).headD []).length (cloneH σ this) 0 0
      this.length).2).next
  rw [rrefGoH_next]
  show σ.next ≤ ((alloc σ (readMat σ this)).2).next
  exact alloc_next_mono σ _

theorem inverseH_frame (σ : St) (this : List ℕ) :
    ∀ b, b < σ.next → ((inverseH σ this).2).heap b = σ.heap b := by
  intro b hb
  have h1 : σ.next ≤ ((cloneH σ this).2).next := alloc_next_mono σ _
  have h2 : ((cloneH σ this).2).next ≤
      ((identityH (cloneH σ this).2 (cloneH σ this).1).2).next := alloc_next_mono _ _
  have h3 : ((identityH (cloneH σ this).2 (cloneH σ this).1).2).next ≤
      ((concatH (identityH (cloneH σ this).2 (cloneH σ this).1).2 (cloneH σ this).1
        (identityH (cloneH σ this).2 (cloneH σ this).1).1).2).next := alloc_next_mono _ _
  have h4 : ((concatH (identityH (cloneH σ this).2 (cloneH σ this).1).2 (cloneH σ this).1
        (identityH (cloneH σ this).2 (cloneH σ this).1).1).2).next ≤
      ((rrefH (concatH (identityH (cloneH σ this).2 (cloneH σ this).1).2 (cloneH σ this).1
          (identityH (cloneH σ this).2 (cloneH σ this).1).1).2
        (concatH (identityH (cloneH σ this).2 (cloneH σ this).1).2 (cloneH σ this).1
          (identityH (cloneH σ this).2 (cloneH σ this).1).1).1).2).next :=
    rrefH_next_mono _ _
  refine (alloc_heap_frame _ _ b ?_).trans ?_
  · omega
  refine (rrefH_frame _ _ b ?_).trans ?_
  · omega
  refine (alloc_heap_frame _ _ b ?_).trans ?_
  · omega
  refine (alloc_heap_frame _ _ b ?_).trans ?_
  · omega
  exact cloneH_heap_frame σ this b hb

/-- C7: `lu`, `rref`, and `inverse` operate on internally created clones:
whenever every row address of the caller's matrix object is allocated, the
caller's stored rows read back unchanged after each of the three calls —
including when `lu` throws, since the pivot check aborts the elimination loop
but the original rows are never written. -/
theorem C7_no_caller_mutation (σ : St) (this : List ℕ)
    (hv : ∀ x ∈ this, x < σ.next) :
    readMat ((luH σ this).2) this = readMat σ this ∧
      readMat ((rrefH σ this).2) this = readMat σ this ∧
      readMat ((inverseH σ this).2) this = readMat σ this := by
  refine ⟨?_, ?_, ?_⟩
  · exact List.map_congr_left (fun x hx => luH_frame σ this x (hv x hx))
  · exact List.map_congr_left (fun x hx => rrefH_frame σ this x (hv x hx))
  · exact List.map_congr_left (fun x hx => inverseH_frame σ this x (hv x hx))

/-- C7 witness: on a concrete two-row heap holding `[[1,2],[3,4]]`, running
`lu`, `rref`, and `inverse` on the stored matrix object leaves the caller's
rows unchanged. -/
theorem C7_no_caller_mutation_witness :
    (∀ x ∈ [0, 1], x < sampleSt.next) ∧
      (readMat ((luH sampleSt [0, 1]).2) [0, 1] = readMat sampleSt [0, 1] ∧
        readMat ((rrefH sampleSt [0, 1]).2) [0, 1] = readMat sampleSt [0, 1] ∧
        readMat ((inverseH sampleSt [0, 1]).2) [0, 1] = readMat sampleSt [0, 1]) :=
  ⟨by decide, C7_no_caller_mutation sampleSt [0, 1] (by decide)⟩

/-- C9: `Matrix.of` is idempotent — wrapping the result of `Matrix.of` again
returns the same object, and `Matrix.of` applied to an existing `Matrix`
returns that very instance unchanged. -/
theorem C9_of_idempotent :
    (∀ x : OfArg, Matrix.of (.mat (Matrix.of x)) = Matrix.of x) ∧
      (∀ M : MatrixObj, Matrix.of (.mat M) = M) :=
  ⟨fun x => rfl, fun M => rfl⟩

end FunMatrix
